import Mathlib

/-!
Verification development for the YouTube comment analyzer backend
(`backend/comment_analyzer.py` and `backend/main.py`).

Modelling conventions:
* Python strings are modelled as `List Char` with ASCII character semantics
  (`str.lower`, `str.isupper`, `\w`, whitespace, ... are modelled by the
  corresponding ASCII predicates on `Char`).
* Python floats are modelled as exact rationals; `round(x, n)` is modelled as
  exact round-half-to-even (banker's rounding) on rationals, which is Python's
  documented rounding mode.
* The analyzer is modelled in the configuration where the optional
  dependencies (transformers, TextBlob, NLTK, wordcloud) are unavailable, so
  every analysis pass runs its in-repo heuristic fallback.  The pre-trained
  model backends are external black boxes and out of scope.
* Python dicts returned by the analyses are modelled as records; `Counter`
  dictionaries are modelled as association lists in first-occurrence order
  (Python dict insertion order).
* Fallible code returns `Except String _`; an `{"error": ...}` dict in the
  source is the `.error` case.  All modelled functions are total, so the
  embedded pipeline cannot raise.
-/

/-! ### Characters and low-level text helpers -/

/-- Python whitespace test (ASCII). -/
def isWsB (c : Char) : Bool := c.isWhitespace

/-- Remove trailing whitespace (the right half of Python's `str.strip()`). -/
def trimEnd (l : List Char) : List Char := (l.reverse.dropWhile isWsB).reverse

/-- Python `str.strip()`: remove leading and trailing whitespace. -/
def trimChars (s : List Char) : List Char := trimEnd (s.dropWhile isWsB)

/-- A Python comment string. -/
abbrev Comment := List Char

/-- Helper: the head of `dropWhile p s` fails `p`. -/
theorem pred_false_of_dropWhile_eq_cons {α} {p : α → Bool} :
    ∀ {s : List α} {c : α} {rest : List α}, s.dropWhile p = c :: rest → p c = false := by
  intro s
  induction s with
  | nil => intro c rest h; simp [List.dropWhile] at h
  | cons a t ih =>
    intro c rest h
    by_cases hp : p a
    · rw [List.dropWhile_cons] at h
      simp [hp] at h
      exact ih h
    · rw [List.dropWhile_cons] at h
      simp [hp] at h
      obtain ⟨rfl, -⟩ := h
      simpa using hp

/-- Python `str.split()` (split on whitespace runs, dropping empty pieces). -/
def splitWs (s : List Char) : List (List Char) :=
  match h : s.dropWhile isWsB with
  | [] => []
  | c :: rest =>
    ((c :: rest).takeWhile (fun x => !(isWsB x))) ::
      splitWs ((c :: rest).dropWhile (fun x => !(isWsB x)))
termination_by s.length
decreasing_by
  have hc : isWsB c = false := pred_false_of_dropWhile_eq_cons h
  have h1 : (c :: rest).length ≤ s.length := by
    rw [← h]; exact (List.dropWhile_sublist isWsB).length_le
  have h2 : ((c :: rest).dropWhile (fun x => !(isWsB x))).length ≤ rest.length := by
    rw [List.dropWhile_cons]
    simp only [hc]
    simpa using (@List.dropWhile_sublist _ rest (fun x => !(isWsB x))).length_le
  simp only [List.length_cons] at h1
  omega

/-- The character class of the URL regex body:
`(?:[a-zA-Z]|[0-9]|[$-_@.&+]|[!*\\(\\),]|(?:%[0-9a-fA-F][0-9a-fA-F]))`.
`[$-_@.&+]` is the character range 0x24-0x5F (plus redundant members), and the
`%xx` escape alternative is subsumed because `%` (0x25) and hex digits are
already in the other alternatives. -/
def isUrlChar (c : Char) : Bool :=
  c.isAlpha || c.isDigit || (decide ('$' ≤ c) && decide (c ≤ '_')) ||
    c == '!' || c == '*' || c == '\\' || c == '(' || c == ')' || c == ','

def schemeHttps : List Char := "https://".toList

def schemeHttp : List Char := "http://".toList

/-- Match the `http[s]?://` part of the URL regex at the head of `s`
(greedy on `[s]?`, with the regex's backtracking to the plain `http://`
alternative); return the remainder after the scheme. -/
def stripScheme (s : List Char) : Option (List Char) :=
  if schemeHttps.isPrefixOf s then some (s.drop 8)
  else if schemeHttp.isPrefixOf s then some (s.drop 7)
  else none

theorem stripScheme_length {s t : List Char} (h : stripScheme s = some t) :
    t.length + 7 ≤ s.length := by
  unfold stripScheme at h
  by_cases h8 : schemeHttps.isPrefixOf s
  · simp [h8] at h
    have hp : schemeHttps <+: s := List.isPrefixOf_iff_prefix.mp h8
    have := hp.length_le
    simp [schemeHttps] at this
    subst h
    simp [List.length_drop]
    omega
  · by_cases h7 : schemeHttp.isPrefixOf s
    · simp [h8, h7] at h
      have hp : schemeHttp <+: s := List.isPrefixOf_iff_prefix.mp h7
      have := hp.length_le
      simp [schemeHttp] at this
      subst h
      simp [List.length_drop]
      omega
    · simp [h8, h7] at h

/-- `re.sub(urlRegex, '', text)`: scan left to right; at each position try to
match `http[s]?://` followed by a maximal non-empty run of URL characters; on
a match drop it and continue after it, otherwise keep the character. -/
def removeUrls : List Char → List Char
  | [] => []
  | c :: rest =>
    match h : stripScheme (c :: rest) with
    | some (r :: rs) =>
      if isUrlChar r then removeUrls (rs.dropWhile isUrlChar)
      else c :: removeUrls rest
    | some [] => c :: removeUrls rest
    | none => c :: removeUrls rest
termination_by s => s.length
decreasing_by
  · have h1 := stripScheme_length h
    have h2 : (rs.dropWhile isUrlChar).length ≤ rs.length :=
      (List.dropWhile_sublist isUrlChar).length_le
    simp only [List.length_cons] at h1 ⊢
    omega
  · simp
  · simp
  · simp

/-- The character filter of `re.sub(r'[^\w\s!?.,]', '', text)`: keep word
characters (ASCII `\w`), whitespace, and basic punctuation. -/
def keepChar (c : Char) : Bool :=
  c.isAlphanum || c == '_' || c.isWhitespace || c == '!' || c == '?' || c == '.' || c == ','

/-- `CommentAnalyzer.clean_text`: strip URLs, strip special characters,
collapse whitespace (`' '.join(text.split())`), and strip. -/
def clean_text (text : List Char) : List Char :=
  let t1 := removeUrls text
  let t2 := t1.filter keepChar
  let t3 := List.intercalate [' '] (splitWs t2)
  trimChars t3

/-! ### Numbers: Python `round` on exact rationals -/

/-- Round-half-to-even on rationals (Python's `round` to an integer). -/
def roundHalfEven (q : ℚ) : ℤ :=
  if q - ⌊q⌋ = 1/2 then (if ⌊q⌋ % 2 = 0 then ⌊q⌋ else ⌊q⌋ + 1) else round q

/-- Python `round(x, 2)` on exact rationals. -/
def pyRound2 (q : ℚ) : ℚ := (roundHalfEven (q * 100) : ℚ) / 100

/-- Python `round(x, 3)` on exact rationals. -/
def pyRound3 (q : ℚ) : ℚ := (roundHalfEven (q * 1000) : ℚ) / 1000

theorem abs_roundHalfEven_sub (q : ℚ) : |(roundHalfEven q : ℚ) - q| ≤ 1/2 := by
  unfold roundHalfEven
  split
  · next hq =>
    have hfl : (⌊q⌋ : ℚ) = q - 1/2 := by linarith
    have habs : |(1:ℚ)/2| = 1/2 := abs_of_nonneg (by norm_num)
    split
    · rw [hfl]
      have e : q - 1/2 - q = -(1/2) := by ring
      rw [e, abs_neg, habs]
    · push_cast
      rw [hfl]
      have e : q - 1/2 + 1 - q = 1/2 := by ring
      rw [e, habs]
  · have := abs_sub_round q
    rw [abs_sub_comm] at this
    exact this

theorem abs_pyRound2_sub (q : ℚ) : |pyRound2 q - q| ≤ 1/200 := by
  unfold pyRound2
  have h := abs_roundHalfEven_sub (q * 100)
  have h2 : |(roundHalfEven (q * 100) : ℚ) / 100 - q| = |(roundHalfEven (q * 100) : ℚ) - q * 100| / 100 := by
    rw [← abs_of_pos (show (0 : ℚ) < 100 from by norm_num), ← abs_div]
    congr 1
    field_simp
    ring
  rw [h2]
  rw [div_le_iff₀ (by norm_num)]
  calc |(roundHalfEven (q * 100) : ℚ) - q * 100| ≤ 1/2 := h
  _ ≤ 1/200 * 100 := by norm_num

/-! ### Counters and dictionaries -/

/-- The key list of a Python dict built by inserting elements of `l` in order:
distinct elements of `l` in first-occurrence order. -/
def firstDedup {α} [DecidableEq α] : List α → List α
  | [] => []
  | a :: l => a :: firstDedup (l.filter (fun x => x ≠ a))
termination_by l => l.length
decreasing_by
  have := List.length_filter_le (fun x => decide (x ≠ a)) l
  simp only [List.length_cons]
  omega

/-- `collections.Counter(l)` as an association list in Python dict order
(first-occurrence order of the keys). -/
def counterList {α} [DecidableEq α] (l : List α) : List (α × ℕ) :=
  (firstDedup l).map (fun a => (a, l.count a))

/-- `max(d, key=d.get)` for a Python dict rendered as an association list:
the first key attaining the maximal value (Python's `max` keeps the current
candidate unless a strictly greater one appears). -/
def argmaxFirst {α} (l : List (α × ℕ)) : Option α :=
  match l with
  | [] => none
  | p :: rest => some ((rest.foldl (fun best q => if best.2 < q.2 then q else best) p).1)

/-- Python `word in text` (substring containment). -/
def substrB (w : List Char) : List Char → Bool
  | [] => w.isEmpty
  | c :: rest => w.isPrefixOf (c :: rest) || substrB w rest

/-! ### Sentiment analysis (`analyze_sentiment`, fallback branch) -/

inductive SLabel where
  | POSITIVE
  | NEGATIVE
  | NEUTRAL
deriving DecidableEq, Repr, Fintype

def positive_words : List (List Char) :=
  ["good".toList, "great".toList, "amazing".toList, "awesome".toList,
   "love".toList, "like".toList, "best".toList, "excellent".toList]

def negative_words : List (List Char) :=
  ["bad".toList, "terrible".toList, "awful".toList, "hate".toList,
   "worst".toList, "sucks".toList, "horrible".toList]

/-- The rule-based sentiment fallback of `analyze_sentiment` (lines 169-185). -/
def heuristicSentiment (comment : Comment) : SLabel :=
  let comment_lower := comment.map Char.toLower
  let pos_count := positive_words.countP (fun w => substrB w comment_lower)
  let neg_count := negative_words.countP (fun w => substrB w comment_lower)
  if neg_count < pos_count then .POSITIVE
  else if pos_count < neg_count then .NEGATIVE
  else .NEUTRAL

/-- The confidence score pushed alongside each fallback label. -/
def sentimentScore : SLabel → ℚ
  | .POSITIVE => 7/10
  | .NEGATIVE => 7/10
  | .NEUTRAL => 1/2

/-- Comments kept by the `len(comment.strip()) < 3: continue` filter. -/
def validLen (c : Comment) : Bool := decide (3 ≤ (trimChars c).length)

structure SentimentResult where
  total_comments : ℕ
  sentiment_distribution : List (SLabel × ℕ)
  sentiment_percentages : List (SLabel × ℚ)
  average_sentiment_score : ℚ
  overall_sentiment : SLabel
deriving DecidableEq, Repr

/-- `CommentAnalyzer.analyze_sentiment` in the heuristic-fallback
configuration (no transformers pipeline, no TextBlob). -/
def analyze_sentiment (comments : List Comment) : Except String SentimentResult :=
  if comments = [] then .error ("No comments provided")
  else
    let sentiments := (comments.filter validLen).map heuristicSentiment
    let sentiment_scores := sentiments.map sentimentScore
    let total_comments := sentiments.length
    if total_comments = 0 then .error ("No valid comments to analyze")
    else
      let sentiment_counts := counterList sentiments
      .ok
        { total_comments := total_comments
          sentiment_distribution := sentiment_counts
          sentiment_percentages :=
            sentiment_counts.map
              (fun p => (p.1, pyRound2 ((p.2 : ℚ) / (total_comments : ℚ) * 100)))
          average_sentiment_score :=
            if sentiment_scores = [] then 0
            else pyRound3 (sentiment_scores.sum / (sentiment_scores.length : ℚ))
          -- `max(sentiment_counts, key=sentiment_counts.get)`; the counter is
          -- non-empty here, so the `Option` default is never used.
          overall_sentiment := (argmaxFirst sentiment_counts).getD .NEUTRAL }

/-! ### Emotion analysis (`analyze_emotions`, fallback branch) -/

inductive ELabel where
  | joy
  | anger
  | sadness
  | fear
  | surprise
  | neutral
deriving DecidableEq, Repr, Fintype

def joyWords : List (List Char) :=
  ["happy".toList, "joy".toList, "love".toList, "great".toList,
   "amazing".toList, "wonderful".toList]

def angerWords : List (List Char) :=
  ["angry".toList, "mad".toList, "hate".toList, "furious".toList, "annoyed".toList]

def sadnessWords : List (List Char) :=
  ["sad".toList, "depressed".toList, "upset".toList, "disappointed".toList]

def fearWords : List (List Char) :=
  ["scared".toList, "afraid".toList, "terrified".toList, "fear".toList]

def surpriseWords : List (List Char) :=
  ["surprised".toList, "shocked".toList, "amazed".toList, "wow".toList]

/-- The rule-based emotion fallback of `analyze_emotions` (lines 223-236). -/
def heuristicEmotion (comment : Comment) : ELabel :=
  let comment_lower := comment.map Char.toLower
  if joyWords.any (fun w => substrB w comment_lower) then .joy
  else if angerWords.any (fun w => substrB w comment_lower) then .anger
  else if sadnessWords.any (fun w => substrB w comment_lower) then .sadness
  else if fearWords.any (fun w => substrB w comment_lower) then .fear
  else if surpriseWords.any (fun w => substrB w comment_lower) then .surprise
  else .neutral

structure EmotionResult where
  emotion_distribution : List (ELabel × ℕ)
  emotion_percentages : List (ELabel × ℚ)
  dominant_emotion : ELabel
deriving DecidableEq, Repr

/-- `CommentAnalyzer.analyze_emotions` in the heuristic-fallback
configuration. -/
def analyze_emotions (comments : List Comment) : Except String EmotionResult :=
  if comments = [] then .error ("No comments provided")
  else
    let emotions := (comments.filter validLen).map heuristicEmotion
    let total_comments := emotions.length
    if total_comments = 0 then .error ("No valid comments to analyze")
    else
      let emotion_counts := counterList emotions
      .ok
        { emotion_distribution := emotion_counts
          emotion_percentages :=
            emotion_counts.map
              (fun p => (p.1, pyRound2 ((p.2 : ℚ) / (total_comments : ℚ) * 100)))
          -- non-empty here, so the `"unknown"` branch of the source and the
          -- `Option` default are never used.
          dominant_emotion := (argmaxFirst emotion_counts).getD .neutral }

deriving instance DecidableEq for Except

/-! ### Toxicity and spam detection (`detect_toxicity`) -/

def toxic_keywords : List (List Char) :=
  ["hate".toList, "stupid".toList, "idiot".toList, "dumb".toList,
   "trash".toList, "garbage".toList, "terrible".toList, "awful".toList,
   "worst".toList, "suck".toList, "sucks".toList, "damn".toList,
   "hell".toList, "shut up".toList]

/-- `any(keyword in comment_lower for keyword in self.toxic_keywords)`. -/
def isToxic (comment : Comment) : Bool :=
  toxic_keywords.any (fun w => substrB w (comment.map Char.toLower))

/-- Python `str.isupper()` (ASCII): at least one cased character, and no
lower-case character. -/
def pyIsUpper (c : Comment) : Bool :=
  c.any Char.isAlpha && c.all (fun ch => !(ch.isLower))

/-- `len(set(comment))`: the number of distinct characters. -/
def distinctCount (c : Comment) : ℕ := c.dedup.length

/-- The spam rule of `detect_toxicity` (lines 270-283): only comments longer
than 10 characters are examined; all-caps comments longer than 20 characters
are flagged first, otherwise comments with fewer than 5 distinct characters
and longer than 15 characters. -/
def spamReason (comment : Comment) : Option String :=
  if 10 < comment.length then
    if pyIsUpper comment && decide (20 < comment.length) then some ("All caps")
    else if decide (distinctCount comment < 5) && decide (15 < comment.length) then
      some ("Repetitive characters")
    else none
  else none

/-- `comment[:100] + "..." if len(comment) > 100 else comment`. -/
def truncateComment (c : Comment) : Comment :=
  if 100 < c.length then c.take 100 ++ "...".toList else c

structure FlagEntry where
  index : ℕ
  comment : Comment
  reason : String
deriving DecidableEq, Repr

structure ToxicityResult where
  total_comments : ℕ
  toxic_comments : ℕ
  toxic_percentage : ℚ
  spam_comments : ℕ
  spam_percentage : ℚ
  toxic_examples : List FlagEntry
  spam_examples : List FlagEntry
deriving DecidableEq, Repr

/-- `CommentAnalyzer.detect_toxicity` (purely rule-based in the source). -/
def detect_toxicity (comments : List Comment) : ToxicityResult :=
  let toxic_comments := comments.enum.filterMap
    (fun p => if isToxic p.2 then
        some { index := p.1, comment := truncateComment p.2,
               reason := "Contains toxic keywords" }
      else none)
  let spam_comments := comments.enum.filterMap
    (fun p => (spamReason p.2).map
      (fun r => { index := p.1, comment := truncateComment p.2, reason := r }))
  let total_comments := comments.length
  { total_comments := total_comments
    toxic_comments := toxic_comments.length
    toxic_percentage :=
      if 0 < total_comments then
        pyRound2 ((toxic_comments.length : ℚ) / (total_comments : ℚ) * 100)
      else 0
    spam_comments := spam_comments.length
    spam_percentage :=
      if 0 < total_comments then
        pyRound2 ((spam_comments.length : ℚ) / (total_comments : ℚ) * 100)
      else 0
    toxic_examples := toxic_comments.take 5
    spam_examples := spam_comments.take 5 }

/-! ### Keyword extraction (`extract_keywords`, no-NLTK branch) -/

/-- The hardcoded stopword fallback (`HAS_NLTK` false, or download failure). -/
def hardcodedStopWords : List (List Char) :=
  ["the".toList, "a".toList, "an".toList, "and".toList, "or".toList,
   "but".toList, "in".toList, "on".toList, "at".toList, "to".toList,
   "for".toList, "of".toList, "with".toList, "by".toList]

/-- Python `str.isalpha()`: non-empty and all alphabetic. -/
def pyIsAlpha (w : List Char) : Bool := !w.isEmpty && w.all Char.isAlpha

/-- The token filter of `extract_keywords`:
`word.isalpha() and len(word) > 2 and word not in self.stop_words`. -/
def keywordFilter (stop_words : List (List Char)) (w : List Char) : Bool :=
  pyIsAlpha w && decide (2 < w.length) && !(stop_words.contains w)

/-- The `all_words` accumulation of `extract_keywords`: for each comment,
tokenize `clean_text(comment.lower())` by whitespace (the no-NLTK fallback)
and keep the filtered words. -/
def allWords (stop_words : List (List Char)) (comments : List Comment) : List (List Char) :=
  comments.flatMap (fun comment =>
    let clean_comment := clean_text (comment.map Char.toLower)
    let words := splitWs clean_comment
    words.filter (keywordFilter stop_words))

structure KeywordEntry where
  word : List Char
  count : ℕ
deriving DecidableEq, Repr

/-- `Counter.most_common(n)`: entries sorted by count descending; Python's
`heapq.nlargest` is stable, so ties keep dict (first-occurrence) order, which
a stable merge sort with the non-strict descending comparator reproduces. -/
def mostCommon (l : List (List Char)) (n : ℕ) : List (KeywordEntry) :=
  (((counterList l).mergeSort (fun a b => decide (b.2 ≤ a.2))).take n).map
    (fun p => { word := p.1, count := p.2 })

/-- `CommentAnalyzer.extract_keywords` in the no-NLTK configuration,
parameterized by the instance's `stop_words` set (the source default for
`top_n` is 20; callers below pass it explicitly). -/
def extract_keywords (stop_words : List (List Char)) (comments : List Comment)
    (top_n : ℕ) : List KeywordEntry :=
  mostCommon (allWords stop_words comments) top_n

/-! ### Word cloud (`generate_wordcloud`, dependency absent) -/

/-- `generate_wordcloud` with `HAS_WORDCLOUD` false: always the empty string. -/
def generate_wordcloud (_comments : List Comment) : List Char := []

/-! ### Pattern analysis (`analyze_comment_patterns`) -/

structure PatternResult where
  total_comments : ℕ
  average_length : ℚ
  median_length : ℚ
  longest_comment : ℕ
  shortest_comment : ℕ
  exclamation_percentage : ℚ
  question_percentage : ℚ
  mention_percentage : ℚ
deriving DecidableEq, Repr

/-- `CommentAnalyzer.analyze_comment_patterns`.  The source guards each length
statistic with `if lengths else 0`; since `lengths` is non-empty past the
first guard, we use total `getD`/`max?`/`min?` with the same `0` defaults. -/
def analyze_comment_patterns (comments : List Comment) : Except String PatternResult :=
  if comments = [] then .error ("No comments to analyze")
  else
    let lengths := comments.map List.length
    let exclamations := comments.countP (fun comment => decide ('!' ∈ comment))
    let questions := comments.countP (fun comment => decide ('?' ∈ comment))
    let mentions := comments.countP (fun comment => decide ('@' ∈ comment))
    .ok
      { total_comments := comments.length
        average_length := pyRound2 ((lengths.sum : ℚ) / (lengths.length : ℚ))
        median_length :=
          pyRound2 (((lengths.mergeSort (fun a b => decide (a ≤ b))).getD
            (lengths.length / 2) 0 : ℚ))
        longest_comment := (lengths.max?).getD 0
        shortest_comment := (lengths.min?).getD 0
        exclamation_percentage := pyRound2 ((exclamations : ℚ) / (comments.length : ℚ) * 100)
        question_percentage := pyRound2 ((questions : ℚ) / (comments.length : ℚ) * 100)
        mention_percentage := pyRound2 ((mentions : ℚ) / (comments.length : ℚ) * 100) }

/-! ### The aggregation pipeline (`get_comprehensive_analysis`) -/

/-- The cleaning stage of `get_comprehensive_analysis`:
`[self.clean_text(comment) for comment in comments if comment.strip()]`. -/
def cleaned_comments (comments : List Comment) : List Comment :=
  (comments.filter (fun comment => !(trimChars comment).isEmpty)).map clean_text

structure Report where
  sentiment_analysis : Except String SentimentResult
  emotion_analysis : Except String EmotionResult
  toxicity_analysis : ToxicityResult
  keywords : List KeywordEntry
  comment_patterns : Except String PatternResult
  wordcloud : List Char
deriving DecidableEq, Repr

/-- `CommentAnalyzer.get_comprehensive_analysis` in the fallback-only
configuration.  The analyzer instance's `stop_words` is the hardcoded
fallback set, and `extract_keywords` is called at its default `top_n = 20`. -/
def get_comprehensive_analysis (comments : List Comment) : Except String Report :=
  if comments = [] then .error ("No comments provided")
  else
    let cleaned := cleaned_comments comments
    if cleaned = [] then .error ("No valid comments after cleaning")
    else
      .ok
        { sentiment_analysis := analyze_sentiment cleaned
          emotion_analysis := analyze_emotions cleaned
          toxicity_analysis := detect_toxicity cleaned
          keywords := extract_keywords hardcodedStopWords cleaned 20
          comment_patterns := analyze_comment_patterns cleaned
          wordcloud := generate_wordcloud cleaned }

/-- The `/analyze/keywords` endpoint (`extract_keywords_only` in
`backend/main.py`): clean the non-blank comments and extract keywords with
`top_n=30`; the two 400 responses are modelled as errors. -/
def extract_keywords_only (comments : List Comment) : Except String (List KeywordEntry) :=
  if comments = [] then .error ("No comments provided")
  else
    let cleaned := cleaned_comments comments
    if cleaned = [] then .error ("No valid comments after cleaning")
    else .ok (extract_keywords hardcodedStopWords cleaned 30)

/-! ### Lemmas about the text helpers -/

theorem trimEnd_sublist (l : List Char) : (trimEnd l).Sublist l := by
  have h := (@List.dropWhile_sublist _ l.reverse isWsB).reverse
  simpa [trimEnd] using h

theorem trimChars_sublist (s : List Char) : (trimChars s).Sublist s :=
  (trimEnd_sublist _).trans (List.dropWhile_sublist isWsB)

theorem length_trimChars_le (s : List Char) : (trimChars s).length ≤ s.length :=
  (trimChars_sublist s).length_le

theorem splitWs_eq_nil_iff {s : List Char} : splitWs s = [] ↔ s.dropWhile isWsB = [] := by
  rw [splitWs]
  constructor
  · intro h
    split at h
    · assumption
    · simp at h
  · intro h
    split
    · rfl
    · next c rest heq => rw [h] at heq; simp at heq

theorem mem_of_mem_splitWs {w : List Char} {s : List Char} (h : w ∈ splitWs s) :
    ∀ x ∈ w, x ∈ s := by
  induction s using splitWs.induct with
  | case1 s heq => rw [splitWs, heq] at h; simp at h
  | case2 s c rest heq ih =>
    rw [splitWs, heq] at h
    simp only [List.mem_cons] at h
    intro x hx
    rcases h with h | h
    · subst h
      have h1 : x ∈ (c :: rest).takeWhile (fun y => !(isWsB y)) := hx
      have h2 : x ∈ c :: rest :=
        (List.takeWhile_sublist (fun y => !(isWsB y))).subset h1
      rw [← heq] at h2
      exact (List.dropWhile_sublist isWsB).subset h2
    · have h2 := ih h x hx
      have h3 : x ∈ c :: rest :=
        (List.dropWhile_sublist (fun y => !(isWsB y))).subset h2
      rw [← heq] at h3
      exact (List.dropWhile_sublist isWsB).subset h3

theorem mem_of_mem_intersperse {sep w : List Char} :
    ∀ {L : List (List Char)}, w ∈ L.intersperse sep → w = sep ∨ w ∈ L := by
  intro L
  induction L with
  | nil => intro h; simp at h
  | cons a t ih =>
    intro h
    cases t with
    | nil => simp at h; simp [h]
    | cons b t2 =>
      rw [List.intersperse_cons_cons] at h
      simp only [List.mem_cons] at h
      rcases h with h | h | h
      · right; simp [h]
      · left; exact h
      · rcases ih h with h2 | h2
        · left; exact h2
        · right; exact List.mem_cons_of_mem a h2

theorem mem_intercalate_space {x : Char} {L : List (List Char)}
    (h : x ∈ List.intercalate [' '] L) : x = ' ' ∨ ∃ w ∈ L, x ∈ w := by
  unfold List.intercalate at h
  rw [List.mem_flatten] at h
  obtain ⟨l, hl, hx⟩ := h
  rcases mem_of_mem_intersperse hl with h2 | h2
  · subst h2
    simp at hx
    left; exact hx
  · right; exact ⟨l, h2, hx⟩

theorem removeUrls_sublist (s : List Char) : (removeUrls s).Sublist s := by
  induction s using removeUrls.induct with
  | case1 => simp [removeUrls]
  | case2 c rest r rs h hr ih =>
    rw [removeUrls, h]
    simp only [hr, if_true]
    have h1 : (rs.dropWhile isUrlChar).Sublist rs := List.dropWhile_sublist _
    have h2 : (r :: rs).Sublist (c :: rest) := by
      have : stripScheme (c :: rest) = some (r :: rs) := h
      unfold stripScheme at this
      split at this
      · simp at this; rw [← this]; exact List.drop_sublist 8 (c :: rest)
      · split at this
        · simp at this; rw [← this]; exact List.drop_sublist 7 (c :: rest)
        · simp at this
    exact ih.trans (h1.trans ((List.sublist_cons_self r rs).trans h2))
  | case3 c rest r rs h hr ih =>
    rw [removeUrls, h]
    simp only [hr, if_false]
    exact ih.cons₂ c
  | case4 c rest h ih =>
    rw [removeUrls, h]
    exact ih.cons₂ c
  | case5 c rest h ih =>
    rw [removeUrls, h]
    exact ih.cons₂ c

theorem not_ws_of_isUrlChar {c : Char} (h : isUrlChar c = true) : isWsB c = false := by
  by_contra hne
  have hws : isWsB c = true := by
    cases hb : isWsB c
    · exact absurd hb hne
    · rfl
  have h4 : ((c = ' ' ∨ c = '\t') ∨ c = '\x0d') ∨ c = '\n' := by
    simpa [isWsB, Char.isWhitespace] using hws
  obtain ((rfl | rfl) | rfl) | rfl := h4 <;> exact absurd h (by decide)

theorem keepChar_of_ws {c : Char} (h : isWsB c = true) : keepChar c = true := by
  unfold keepChar
  unfold isWsB at h
  rw [h]
  simp

theorem stripScheme_countP_ws {s t : List Char} (h : stripScheme s = some t) :
    s.countP isWsB = t.countP isWsB := by
  unfold stripScheme at h
  by_cases h8 : schemeHttps.isPrefixOf s
  · rw [if_pos h8] at h
    replace h := Option.some.inj h
    have hp : schemeHttps <+: s := List.isPrefixOf_iff_prefix.mp h8
    have htake : schemeHttps = s.take 8 := by
      have := List.prefix_iff_eq_take.mp hp
      simpa [schemeHttps] using this
    have hsplit : s = s.take 8 ++ s.drop 8 := (List.take_append_drop 8 s).symm
    rw [← h]
    conv_lhs => rw [hsplit]
    rw [List.countP_append, ← htake]
    have : schemeHttps.countP isWsB = 0 := by decide
    rw [this]
    omega
  · by_cases h7 : schemeHttp.isPrefixOf s
    · rw [if_neg h8, if_pos h7] at h
      replace h := Option.some.inj h
      have hp : schemeHttp <+: s := List.isPrefixOf_iff_prefix.mp h7
      have htake : schemeHttp = s.take 7 := by
        have := List.prefix_iff_eq_take.mp hp
        simpa [schemeHttp] using this
      have hsplit : s = s.take 7 ++ s.drop 7 := (List.take_append_drop 7 s).symm
      rw [← h]
      conv_lhs => rw [hsplit]
      rw [List.countP_append, ← htake]
      have : schemeHttp.countP isWsB = 0 := by decide
      rw [this]
      omega
    · rw [if_neg h8, if_neg h7] at h
      cases h

theorem countP_ws_removeUrls (s : List Char) :
    (removeUrls s).countP isWsB = s.countP isWsB := by
  induction s using removeUrls.induct with
  | case1 => simp [removeUrls]
  | case2 c rest r rs h hr ih =>
    rw [removeUrls, h]
    simp only [hr, if_true]
    rw [ih]
    have h1 := stripScheme_countP_ws h
    rw [h1]
    have h2 : rs = rs.takeWhile isUrlChar ++ rs.dropWhile isUrlChar :=
      (List.takeWhile_append_dropWhile isUrlChar rs).symm
    rw [List.countP_cons, not_ws_of_isUrlChar hr]
    conv_rhs => rw [h2]
    rw [List.countP_append]
    have h3 : (rs.takeWhile isUrlChar).countP isWsB = 0 := by
      rw [List.countP_eq_zero]
      intro a ha
      rw [not_ws_of_isUrlChar (List.mem_takeWhile_imp ha)]
      simp
    simp [h3]
  | case3 c rest r rs h hr ih =>
    rw [removeUrls, h]
    simp only [hr, if_false, Bool.false_eq_true]
    rw [List.countP_cons, List.countP_cons, ih]
  | case4 c rest h ih =>
    rw [removeUrls, h, List.countP_cons, List.countP_cons, ih]
  | case5 c rest h ih =>
    rw [removeUrls, h, List.countP_cons, List.countP_cons, ih]

theorem countP_ws_filter_keep (l : List Char) :
    (l.filter keepChar).countP isWsB = l.countP isWsB := by
  rw [List.countP_filter]
  apply List.countP_congr
  intro x hx
  constructor
  · intro h
    exact (Bool.and_eq_true _ _).mp h |>.1
  · intro h
    rw [h, keepChar_of_ws h]
    rfl

/-- Deleting only non-whitespace characters cannot shorten the leading
whitespace block. -/
theorem lead_ws_mono {u c : List Char} (h : u.Sublist c)
    (hP : u.countP isWsB = c.countP isWsB) :
    (c.takeWhile isWsB).length ≤ (u.takeWhile isWsB).length := by
  induction h with
  | slnil => simp
  | cons a h2 ih =>
    next u2 c2 =>
    have hle := h2.countP_le isWsB
    rw [List.countP_cons] at hP
    by_cases ha : isWsB a
    · rw [ha] at hP
      simp at hP
      omega
    · have ha2 : isWsB a = false := by
        cases hb : isWsB a
        · rfl
        · exact absurd hb ha
      rw [List.takeWhile_cons, ha2]
      simp
  | cons₂ a h2 ih =>
    next u2 c2 =>
    rw [List.countP_cons, List.countP_cons] at hP
    have hP2 : u2.countP isWsB = c2.countP isWsB := by omega
    rw [List.takeWhile_cons, List.takeWhile_cons]
    by_cases ha : isWsB a
    · rw [ha]
      simp only [if_true]
      simpa using ih hP2
    · have ha2 : isWsB a = false := by
        cases hb : isWsB a
        · rfl
        · exact absurd hb ha
      rw [ha2]
      simp

theorem takeWhile_append_of_exists_false {p : Char → Bool} {a b : List Char}
    (h : ∃ x ∈ a, p x = false) : (a ++ b).takeWhile p = a.takeWhile p := by
  induction a with
  | nil => simp at h
  | cons y t ih =>
    rw [List.cons_append, List.takeWhile_cons, List.takeWhile_cons]
    by_cases hy : p y
    · rw [hy]
      simp only [if_true]
      obtain ⟨x, hx, hpx⟩ := h
      rcases List.mem_cons.mp hx with rfl | hx2
    
      · rw [hy] at hpx; cases hpx
      · rw [ih ⟨x, hx2, hpx⟩]
    · have hy2 : p y = false := by
        cases hb : p y
        · rfl
        · exact absurd hb hy
      rw [hy2]
      simp

/-- The length of any list splits as leading-whitespace + rest. -/
theorem length_eq_lead_add_dropWhile (l : List Char) :
    l.length = (l.takeWhile isWsB).length + (l.dropWhile isWsB).length := by
  conv_lhs => rw [← List.takeWhile_append_dropWhile isWsB l]
  rw [List.length_append]

/-- The length of any list splits as trailing-whitespace + trimmed rest. -/
theorem length_eq_trail_add_trimEnd (l : List Char) :
    l.length = (l.reverse.takeWhile isWsB).length + (trimEnd l).length := by
  have h := length_eq_lead_add_dropWhile l.reverse
  rw [List.length_reverse] at h
  rw [h]
  unfold trimEnd
  rw [List.length_reverse]

/-- Dropping the leading whitespace does not change the trailing whitespace
block when the list has a non-whitespace character. -/
theorem trail_dropWhile_eq {l : List Char} (h : ∃ x ∈ l, isWsB x = false) :
    ((l.dropWhile isWsB).reverse.takeWhile isWsB).length =
      (l.reverse.takeWhile isWsB).length := by
  obtain ⟨x, hx, hpx⟩ := h
  have hsplit : l = l.takeWhile isWsB ++ l.dropWhile isWsB :=
    (List.takeWhile_append_dropWhile isWsB l).symm
  have hxd : x ∈ l.dropWhile isWsB := by
    rw [hsplit] at hx
    rcases List.mem_append.mp hx with h2 | h2
    · have := List.mem_takeWhile_imp h2
      rw [hpx] at this
      cases this
    · exact h2
  conv_rhs => rw [hsplit]
  rw [List.reverse_append]
  rw [takeWhile_append_of_exists_false ⟨x, List.mem_reverse.mpr hxd, hpx⟩]

/-- Deleting only non-whitespace characters cannot lengthen the
stripped core: `trimChars` is length-monotone along whitespace-preserving
sublists. -/
theorem length_trimChars_mono {u c : List Char} (h : u.Sublist c)
    (hP : u.countP isWsB = c.countP isWsB) :
    (trimChars u).length ≤ (trimChars c).length := by
  by_cases hu : ∀ x ∈ u, isWsB x = true
  · have h1 : u.dropWhile isWsB = [] := List.dropWhile_eq_nil_iff.mpr hu
    unfold trimChars
    rw [h1]
    simp [trimEnd]
  · push_neg at hu
    obtain ⟨x, hx, hpx⟩ := hu
    have hpx2 : isWsB x = false := by
      cases hb : isWsB x
      · rfl
      · exact absurd hb hpx
    have hxc : x ∈ c := h.subset hx
    -- decompositions
    have equ : u.length = (u.takeWhile isWsB).length + (u.reverse.takeWhile isWsB).length
        + (trimChars u).length := by
      have e1 := length_eq_lead_add_dropWhile u
      have e2 := length_eq_trail_add_trimEnd (u.dropWhile isWsB)
      have e3 := trail_dropWhile_eq ⟨x, hx, hpx2⟩
      unfold trimChars
      omega
    have eqc : c.length = (c.takeWhile isWsB).length + (c.reverse.takeWhile isWsB).length
        + (trimChars c).length := by
      have e1 := length_eq_lead_add_dropWhile c
      have e2 := length_eq_trail_add_trimEnd (c.dropWhile isWsB)
      have e3 := trail_dropWhile_eq ⟨x, hxc, hpx2⟩
      unfold trimChars
      omega
    have hlen := h.length_le
    have hlead := lead_ws_mono h hP
    have htrail : (c.reverse.takeWhile isWsB).length ≤ (u.reverse.takeWhile isWsB).length := by
      apply lead_ws_mono h.reverse
      rw [List.countP_reverse, List.countP_reverse]
      exact hP
    omega

theorem trimEnd_append {a b : List Char} (h : ∃ x ∈ b, isWsB x = false) :
    trimEnd (a ++ b) = a ++ trimEnd b := by
  obtain ⟨x, hx, hpx⟩ := h
  have hne : b.reverse.dropWhile isWsB ≠ [] := by
    intro hnil
    have := List.dropWhile_eq_nil_iff.mp hnil x (List.mem_reverse.mpr hx)
    rw [hpx] at this
    cases this
  unfold trimEnd
  rw [List.reverse_append, List.dropWhile_append]
  rw [if_neg (by simpa [List.isEmpty_iff] using hne)]
  rw [List.reverse_append, List.reverse_reverse]

theorem trimEnd_of_all_not_ws {w : List Char} (h : ∀ x ∈ w, isWsB x = false) :
    trimEnd w = w := by
  unfold trimEnd
  cases hrev : w.reverse with
  | nil =>
    have : w = [] := by simpa using congrArg List.reverse hrev
    simp [this]
  | cons a t =>
    have ha : a ∈ w := List.mem_reverse.mp (by rw [hrev]; exact List.mem_cons_self a t)
    rw [List.dropWhile_cons, h a ha]
    simp only [if_false, Bool.false_eq_true]
    rw [← hrev, List.reverse_reverse]

theorem splitWs_eq_cons {s : List Char} {c : Char} {rest : List Char}
    (heq : s.dropWhile isWsB = c :: rest) :
    splitWs s = ((c :: rest).takeWhile (fun x => !(isWsB x))) ::
      splitWs ((c :: rest).dropWhile (fun x => !(isWsB x))) := by
  rw [splitWs]
  split
  · next h => rw [heq] at h; cases h
  · next c2 rest2 h =>
    rw [heq] at h
    obtain ⟨rfl, rfl⟩ : c2 = c ∧ rest2 = rest := by
      have h1 := List.cons.inj h
      exact ⟨h1.1.symm, h1.2.symm⟩
    rfl

theorem mem_takeWhile_not_ws {s : List Char} {x : Char}
    (h : x ∈ s.takeWhile (fun y => !(isWsB y))) : isWsB x = false := by
  have := List.mem_takeWhile_imp h
  simpa using this

/-- The whitespace-collapsing join is never longer than the stripped input:
`' '.join(s.split())` fits inside `s.strip()`. -/
theorem length_intercalate_splitWs_le (s : List Char) :
    (List.intercalate [' '] (splitWs s)).length ≤ (trimChars s).length := by
  induction s using splitWs.induct with
  | case1 s heq =>
    rw [splitWs, heq]
    simp [List.intercalate]
  | case2 s c rest heq ih =>
    rw [splitWs_eq_cons heq]
    have hc : isWsB c = false := pred_false_of_dropWhile_eq_cons heq
    have htrim : trimChars s = trimEnd (c :: rest) := by
      unfold trimChars
      rw [heq]
    set w := (c :: rest).takeWhile (fun y => !(isWsB y)) with hw
    set r := (c :: rest).dropWhile (fun y => !(isWsB y)) with hrdef
    have hsplit : c :: rest = w ++ r := (List.takeWhile_append_dropWhile _ _).symm
    have hwne : w ≠ [] := by
      rw [hw, List.takeWhile_cons, hc]
      simp
    have hwall : ∀ x ∈ w, isWsB x = false := fun x hx => mem_takeWhile_not_ws hx
    by_cases hr0 : splitWs r = []
    · -- no further word: everything after `w` is whitespace
      have hrws : ∀ x ∈ r, isWsB x = true := by
        have := splitWs_eq_nil_iff.mp hr0
        exact List.dropWhile_eq_nil_iff.mp this
      rw [hr0]
      have h1 : List.intercalate [' '] [w] = w := by simp [List.intercalate]
      rw [h1, htrim, hsplit]
      by_cases hrnil : r = []
      · rw [hrnil, List.append_nil, trimEnd_of_all_not_ws hwall]
      · have : trimEnd (w ++ r) = trimEnd w := by
          unfold trimEnd
          rw [List.reverse_append, List.dropWhile_append]
          rw [if_pos]
          rw [List.isEmpty_iff, List.dropWhile_eq_nil_iff]
          intro y hy
          exact hrws y (List.mem_reverse.mp hy)
        rw [this, trimEnd_of_all_not_ws hwall]
    · -- at least one more word in `r`
      have hrne : r ≠ [] := by
        intro hnil
        rw [hnil] at hr0
        exact hr0 (by rw [splitWs]; simp)
      have hrhead : ∃ x ∈ r, isWsB x = false := by
        have h2 : r.dropWhile isWsB ≠ [] := by
          intro hnil
          exact hr0 (splitWs_eq_nil_iff.mpr hnil)
        cases hcase : r.dropWhile isWsB with
        | nil => exact absurd hcase h2
        | cons y ys =>
          refine ⟨y, ?_, pred_false_of_dropWhile_eq_cons hcase⟩
          have : y ∈ r.dropWhile isWsB := by rw [hcase]; exact List.mem_cons_self y ys
          exact (List.dropWhile_sublist isWsB).subset this
      have hinter : List.intercalate [' '] (w :: splitWs r)
          = w ++ [' '] ++ List.intercalate [' '] (splitWs r) := by
        cases hcase : splitWs r with
        | nil => exact absurd hcase hr0
        | cons v vs =>
          unfold List.intercalate
          rw [List.intersperse_cons_cons]
          simp
      rw [hinter]
      -- the tail `r` starts with whitespace
      have hrws : r.takeWhile isWsB ≠ [] := by
        cases hrc : r with
        | nil => exact absurd hrc hrne
        | cons y ys =>
          have hy : isWsB y = true := by
            have h0 : List.dropWhile (fun z => !(isWsB z)) (c :: rest) = y :: ys := by
              rw [← hrdef, hrc]
            have := pred_false_of_dropWhile_eq_cons h0
            simpa using this
          rw [List.takeWhile_cons, hy]
          simp
      have hdecomp : r = r.takeWhile isWsB ++ r.dropWhile isWsB :=
        (List.takeWhile_append_dropWhile isWsB r).symm
      have htrimr : trimChars r = trimEnd (r.dropWhile isWsB) := rfl
      -- trailing part of `r` (after its own leading whitespace) is non-empty
      have hrd : ∃ x ∈ r.dropWhile isWsB, isWsB x = false := by
        obtain ⟨x, hx, hpx⟩ := hrhead
        rw [hdecomp] at hx
        rcases List.mem_append.mp hx with h2 | h2
        · have := List.mem_takeWhile_imp h2
          rw [hpx] at this
          cases this
        · exact ⟨x, h2, hpx⟩
      have e1 : trimEnd r = r.takeWhile isWsB ++ trimEnd (r.dropWhile isWsB) := by
        conv_lhs => rw [hdecomp]
        exact trimEnd_append hrd
      have e2 : trimEnd (w ++ r) = w ++ trimEnd r := trimEnd_append hrhead
      rw [htrim, hsplit, e2, e1]
      have hlen1 : (r.takeWhile isWsB).length ≥ 1 := by
        cases hcase : r.takeWhile isWsB with
        | nil => exact absurd hcase hrws
        | cons y ys => simp
      have ihle := ih
      rw [htrimr] at ihle
      simp only [List.length_append, List.length_singleton]
      omega

/-- Cleaning a comment never yields more characters than stripping it:
URL removal and the character filter delete only non-whitespace characters,
and the whitespace-collapsing join then fits inside the strip. -/
theorem length_clean_text_le_trim (c : List Char) :
    (clean_text c).length ≤ (trimChars c).length := by
  unfold clean_text
  have hsub : ((removeUrls c).filter keepChar).Sublist c :=
    (List.filter_sublist (removeUrls c)).trans (removeUrls_sublist c)
  have hP : ((removeUrls c).filter keepChar).countP isWsB = c.countP isWsB := by
    rw [countP_ws_filter_keep, countP_ws_removeUrls]
  calc (trimChars (List.intercalate [' '] (splitWs ((removeUrls c).filter keepChar)))).length
      ≤ (List.intercalate [' '] (splitWs ((removeUrls c).filter keepChar))).length :=
        length_trimChars_le _
    _ ≤ (trimChars ((removeUrls c).filter keepChar)).length :=
        length_intercalate_splitWs_le _
    _ ≤ (trimChars c).length := length_trimChars_mono hsub hP

/-- Every character of a cleaned comment is a space or passes the character
filter. -/
theorem mem_clean_text {s : List Char} {x : Char} (h : x ∈ clean_text s) :
    x = ' ' ∨ keepChar x = true := by
  unfold clean_text at h
  have h1 : x ∈ List.intercalate [' '] (splitWs ((removeUrls s).filter keepChar)) :=
    (trimChars_sublist _).subset h
  rcases mem_intercalate_space h1 with h2 | ⟨w, hw, hx⟩
  · left; exact h2
  · right
    have h3 : x ∈ (removeUrls s).filter keepChar := mem_of_mem_splitWs hw x hx
    exact (List.mem_filter.mp h3).2

/-- Text cleaning removes every `@`. -/
theorem at_not_mem_clean_text (s : List Char) : '@' ∉ clean_text s := by
  intro h
  rcases mem_clean_text h with h2 | h2
  · cases h2
  · rw [show keepChar '@' = false from by decide] at h2
    cases h2

/-! ### Lemmas about counters -/

theorem mem_of_mem_firstDedup {α} [DecidableEq α] :
    ∀ {l : List α} {x : α}, x ∈ firstDedup l → x ∈ l := by
  intro l
  induction l using firstDedup.induct with
  | case1 => intro x h; simp [firstDedup] at h
  | case2 a t ih =>
    intro x h
    rw [firstDedup] at h
    rcases List.mem_cons.mp h with rfl | h2
    · exact List.mem_cons_self x _
    · have h3 := ih h2
      exact List.mem_cons_of_mem a (List.mem_filter.mp h3).1

theorem nodup_firstDedup {α} [DecidableEq α] :
    ∀ (l : List α), (firstDedup l).Nodup := by
  intro l
  induction l using firstDedup.induct with
  | case1 => simp [firstDedup]
  | case2 a t ih =>
    rw [firstDedup]
    refine List.Nodup.cons ?_ ih
    intro hmem
    have h2 := mem_of_mem_firstDedup hmem
    have h3 := (List.mem_filter.mp h2).2
    simp at h3

theorem ne_of_mem_firstDedup_filter {α} [DecidableEq α] {a x : α} {t : List α}
    (h : x ∈ firstDedup (t.filter (fun y => y ≠ a))) : x ≠ a := by
  have h2 := mem_of_mem_firstDedup h
  have h3 := (List.mem_filter.mp h2).2
  simpa using h3

/-- The counts of a counter sum to the length of the counted list. -/
theorem sum_counterList_counts {α} [DecidableEq α] :
    ∀ (l : List α), ((firstDedup l).map (fun a => l.count a)).sum = l.length := by
  intro l
  induction l using firstDedup.induct with
  | case1 => simp [firstDedup]
  | case2 a t ih =>
    rw [firstDedup]
    rw [List.map_cons, List.sum_cons]
    have hmap : (firstDedup (t.filter (fun y => y ≠ a))).map (fun x => (a :: t).count x)
        = (firstDedup (t.filter (fun y => y ≠ a))).map
            (fun x => (t.filter (fun y => y ≠ a)).count x) := by
      apply List.map_congr_left
      intro x hx
      have hxa : x ≠ a := ne_of_mem_firstDedup_filter hx
      rw [List.count_cons]
      rw [show (a == x) = false from by simpa using fun h => hxa h.symm]
      simp only [if_false, Bool.false_eq_true, Nat.add_zero]
      rw [List.count_filter (by simpa using hxa)]
    rw [hmap, ih]
    rw [List.count_cons_self]
    have hsplit : t.length = t.count a + (t.filter (fun y => y ≠ a)).length := by
      rw [List.length_eq_countP_add_countP (fun y => y == a)]
      have h1 : t.count a = List.countP (fun y => y == a) t := by
        rw [List.count]
      have h2 : (t.filter (fun y => y ≠ a)).length
          = List.countP (fun y => decide ¬(y == a) = true) t := by
        rw [← List.countP_eq_length_filter]
        apply List.countP_congr
        intro x hx
        simp
      omega
    simp only [List.length_cons]
    omega

theorem length_counterList_le_card {α} [DecidableEq α] [Fintype α] (l : List α) :
    (counterList l).length ≤ Fintype.card α := by
  unfold counterList
  rw [List.length_map]
  exact (nodup_firstDedup l).length_le_card

theorem mem_counterList {α} [DecidableEq α] {l : List α} {p : α × ℕ}
    (h : p ∈ counterList l) : p.1 ∈ l ∧ p.2 = l.count p.1 := by
  unfold counterList at h
  obtain ⟨a, ha, rfl⟩ := List.mem_map.mp h
  exact ⟨mem_of_mem_firstDedup ha, rfl⟩

/-! ### Percentage sums -/

theorem abs_sum_pyRound2_sub (xs : List ℚ) :
    |((xs.map pyRound2).sum) - xs.sum| ≤ (xs.length : ℚ) * (1/200) := by
  induction xs with
  | nil => simp
  | cons a t ih =>
    simp only [List.map_cons, List.sum_cons, List.length_cons]
    have h1 := abs_pyRound2_sub a
    have h2 : |pyRound2 a + (t.map pyRound2).sum - (a + t.sum)|
        = |(pyRound2 a - a) + ((t.map pyRound2).sum - t.sum)| := by ring_nf
    rw [h2]
    push_cast
    calc |(pyRound2 a - a) + ((t.map pyRound2).sum - t.sum)|
        ≤ |pyRound2 a - a| + |(t.map pyRound2).sum - t.sum| := abs_add _ _
      _ ≤ 1/200 + (t.length : ℚ) * (1/200) := add_le_add h1 ih
      _ = ((t.length : ℚ) + 1) * (1/200) := by ring

theorem sum_map_div_mul (ys : List ℕ) (T : ℚ) :
    ((ys.map (fun c : ℕ => (c : ℚ) / T * 100)).sum) = ((ys.sum : ℚ)) / T * 100 := by
  induction ys with
  | nil => simp
  | cons a t ih =>
    simp only [List.map_cons, List.sum_cons, ih]
    push_cast
    ring

/-- For a non-empty label list, the two-decimal rounded percentages of its
counter sum to 100 up to one rounding error per distribution entry. -/
theorem counter_percentages_sum_close {α} [DecidableEq α] (ls : List α) (hne : ls ≠ []) :
    |(((counterList ls).map
        (fun p => pyRound2 ((p.2 : ℚ) / ((ls.length : ℕ) : ℚ) * 100))).sum) - 100|
      ≤ ((counterList ls).length : ℚ) * (1/200) := by
  have hlen : (0 : ℚ) < ((ls.length : ℕ) : ℚ) := by
    have : 0 < ls.length := List.length_pos.mpr hne
    exact_mod_cast this
  set T : ℚ := ((ls.length : ℕ) : ℚ) with hT
  -- the unrounded percentages
  set xs : List ℚ :=
    (counterList ls).map (fun p => (p.2 : ℚ) / T * 100) with hxs
  have hmap : (counterList ls).map (fun p => pyRound2 ((p.2 : ℚ) / T * 100))
      = xs.map pyRound2 := by
    rw [hxs, List.map_map]
    rfl
  have hsum : xs.sum = 100 := by
    rw [hxs]
    unfold counterList
    rw [List.map_map]
    have hcomp : ((fun p : α × ℕ => (p.2 : ℚ) / T * 100) ∘ fun a => (a, ls.count a))
        = fun a => ((ls.count a : ℚ)) / T * 100 := rfl
    rw [hcomp]
    have h3 : (firstDedup ls).map (fun a => ((ls.count a : ℚ)) / T * 100)
        = ((firstDedup ls).map (fun a => ls.count a)).map (fun c : ℕ => (c : ℚ) / T * 100) := by
      rw [List.map_map]
      rfl
    rw [h3, sum_map_div_mul, sum_counterList_counts]
    rw [hT]
    field_simp
  have hlx : xs.length = (counterList ls).length := by
    rw [hxs, List.length_map]
  rw [hmap]
  rw [← hlx]
  have := abs_sum_pyRound2_sub xs
  rw [hsum] at this
  exact this

/-! ### Small evaluation helpers -/

theorem pyRound2_zero : pyRound2 0 = 0 := by
  unfold pyRound2 roundHalfEven
  norm_num

theorem distinctCount_replicate (n : ℕ) (ch : Char) :
    distinctCount (List.replicate (n + 1) ch) = 1 := by
  induction n with
  | zero => simp [distinctCount]
  | succ m ih =>
    unfold distinctCount at ih ⊢
    rw [List.replicate_succ]
    rw [List.dedup_cons_of_mem (by simp [List.mem_replicate])]
    exact ih

theorem cleaned_comments_eq_nil_iff {comments : List Comment} :
    cleaned_comments comments = [] ↔ ∀ c ∈ comments, trimChars c = [] := by
  unfold cleaned_comments
  rw [List.map_eq_nil_iff, List.filter_eq_nil_iff]
  constructor
  · intro h c hc
    have := h c hc
    simpa [List.isEmpty_iff] using this
  · intro h c hc
    simp [List.isEmpty_iff, h c hc]

theorem clean_text_at_singleton : clean_text ['@'] = [] := by
  rw [show clean_text ['@'] = trimChars (List.intercalate [' ']
      (splitWs ((removeUrls ['@']).filter keepChar))) from rfl]
  rw [show removeUrls ['@'] = ['@'] from by
    rw [removeUrls]
    rw [show stripScheme ['@'] = none from by decide]
    rw [show removeUrls ([] : List Char) = [] from by rw [removeUrls]]]
  rw [show List.filter keepChar ['@'] = [] from by decide]
  rw [splitWs_eq_nil_iff.mpr (show List.dropWhile isWsB [] = [] from rfl)]
  rfl

/-- `analyze_comment_patterns` on a non-empty list, written out. -/
theorem analyze_comment_patterns_spec (comments : List Comment) (h : ¬comments = []) :
    analyze_comment_patterns comments = .ok
      { total_comments := comments.length
        average_length := pyRound2 ((((comments.map List.length).sum : ℕ) : ℚ)
          / (((comments.map List.length).length : ℕ) : ℚ))
        median_length := pyRound2 (((((comments.map List.length).mergeSort
          (fun a b => decide (a ≤ b))).getD ((comments.map List.length).length / 2) 0 : ℕ) : ℚ))
        longest_comment := ((comments.map List.length).max?).getD 0
        shortest_comment := ((comments.map List.length).min?).getD 0
        exclamation_percentage := pyRound2
          (((comments.countP (fun c => decide ('!' ∈ c)) : ℕ) : ℚ)
            / ((comments.length : ℕ) : ℚ) * 100)
        question_percentage := pyRound2
          (((comments.countP (fun c => decide ('?' ∈ c)) : ℕ) : ℚ)
            / ((comments.length : ℕ) : ℚ) * 100)
        mention_percentage := pyRound2
          (((comments.countP (fun c => decide ('@' ∈ c)) : ℕ) : ℚ)
            / ((comments.length : ℕ) : ℚ) * 100) } := by
  unfold analyze_comment_patterns
  rw [if_neg h]

/-! ### Claim theorems -/

/-- C9: the full analysis pipeline is deterministic.  The embedded
`get_comprehensive_analysis` is a pure function of its input (the fallback
configuration holds no mutable state), so the reports of two runs on the same
comment list are definitionally equal. -/
theorem c9_pipeline_deterministic :
    ∀ comments : List Comment,
      get_comprehensive_analysis comments = get_comprehensive_analysis comments :=
  fun _ => rfl

/-- C5: the detector flags a comment as spam iff it is fully upper-case
(Python `isupper`) and longer than 20 characters, or has fewer than 5
distinct characters and is longer than 15 characters; 16 identical
characters are flagged as "Repetitive characters", an all-caps comment
longer than 20 characters as "All caps"; and `detect_toxicity` counts
exactly the comments so flagged. -/
theorem c5_spam_rule :
    (∀ c : Comment, (spamReason c).isSome = true ↔
        ((pyIsUpper c = true ∧ 20 < c.length) ∨ (distinctCount c < 5 ∧ 15 < c.length)))
  ∧ (∀ ch : Char, spamReason (List.replicate 16 ch) = some ("Repetitive characters"))
  ∧ (∀ c : Comment, pyIsUpper c = true → 20 < c.length →
      spamReason c = some ("All caps"))
  ∧ (∀ comments : List Comment,
      (detect_toxicity comments).spam_comments
        = comments.countP (fun c => (spamReason c).isSome)) := by
  have hrule : ∀ c : Comment, (spamReason c).isSome = true ↔
      ((pyIsUpper c = true ∧ 20 < c.length) ∨ (distinctCount c < 5 ∧ 15 < c.length)) := by
    intro c
    unfold spamReason
    by_cases h10 : 10 < c.length
    · rw [if_pos h10]
      by_cases hA : (pyIsUpper c && decide (20 < c.length)) = true
      · rw [if_pos hA]
        simp only [Bool.and_eq_true, decide_eq_true_eq] at hA
        simp only [Option.isSome_some, true_iff]
        exact Or.inl hA
      · rw [if_neg hA]
        simp only [Bool.and_eq_true, decide_eq_true_eq] at hA
        by_cases hB : (decide (distinctCount c < 5) && decide (15 < c.length)) = true
        · rw [if_pos hB]
          simp only [Bool.and_eq_true, decide_eq_true_eq] at hB
          simp only [Option.isSome_some, true_iff]
          exact Or.inr hB
        · rw [if_neg hB]
          simp only [Bool.and_eq_true, decide_eq_true_eq] at hB
          simp only [Option.isSome_none, Bool.false_eq_true, false_iff]
          rintro (⟨h1, h2⟩ | ⟨h1, h2⟩)
          · exact hA ⟨h1, h2⟩
          · exact hB ⟨h1, h2⟩
    · rw [if_neg h10]
      simp only [Option.isSome_none, Bool.false_eq_true, false_iff]
      rintro (⟨-, h⟩ | ⟨-, h⟩) <;> omega
  refine ⟨hrule, ?_, ?_, ?_⟩
  · intro ch
    unfold spamReason
    rw [if_pos (by simp)]
    rw [if_neg (by simp)]
    rw [if_pos]
    simp only [Bool.and_eq_true, decide_eq_true_eq]
    constructor
    · rw [show (16 : ℕ) = 15 + 1 from rfl, distinctCount_replicate]
      omega
    · simp
  · intro c hU h20
    unfold spamReason
    rw [if_pos (by omega)]
    rw [if_pos (by simp [hU, h20])]
  · intro comments
    unfold detect_toxicity
    rw [List.enum]
    generalize 0 = start
    induction comments generalizing start with
    | nil => simp
    | cons a t ih =>
      rw [List.enumFrom_cons, List.filterMap_cons, List.countP_cons]
      cases hsp : spamReason a with
      | none => simpa [hsp] using ih (start + 1)
      | some r => simpa [hsp] using ih (start + 1)

/-- C2 counterexample: on input `["@"]` the original comment is non-blank,
so it survives the blank filter, but cleaning strips the `@`, and the
pipeline hands the *blank* cleaned string `""` to the sub-analyses instead of
discarding it (the report is still produced). -/
theorem c2_counterexample :
    (get_comprehensive_analysis [['@']]).isOk = true
  ∧ cleaned_comments [['@']] = [[]]
  ∧ ([] : List Char) ∈ cleaned_comments [['@']]
  ∧ trimChars ([] : List Char) = [] := by
  have hclean : cleaned_comments [['@']] = [[]] := by
    unfold cleaned_comments
    rw [show List.filter (fun c => !(trimChars c).isEmpty) [['@']] = [['@']] from by decide]
    rw [List.map_singleton, clean_text_at_singleton]
  refine ⟨?_, hclean, ?_, rfl⟩
  · unfold get_comprehensive_analysis
    rw [if_neg (by decide), if_neg (by rw [hclean]; decide)]
    rfl
  · rw [hclean]
    exact List.mem_singleton.mpr rfl

/-- C2 (amended): `get_comprehensive_analysis` discards the input comments
that are blank *before* cleaning, short-circuits with an error exactly when
every input comment is blank (or the list is empty), and otherwise hands every
sub-analysis the cleaned versions of the non-blank inputs — cleaned strings
that may themselves be blank, as cleaning can erase all content. -/
theorem c2_cleaning :
    ∀ comments : List Comment,
      ((∃ e, get_comprehensive_analysis comments = .error e) ↔
        ∀ c ∈ comments, trimChars c = [])
    ∧ (∀ r, get_comprehensive_analysis comments = .ok r →
        r.sentiment_analysis = analyze_sentiment (cleaned_comments comments)
      ∧ r.emotion_analysis = analyze_emotions (cleaned_comments comments)
      ∧ r.toxicity_analysis = detect_toxicity (cleaned_comments comments)
      ∧ r.keywords = extract_keywords hardcodedStopWords (cleaned_comments comments) 20
      ∧ r.comment_patterns = analyze_comment_patterns (cleaned_comments comments)
      ∧ r.wordcloud = generate_wordcloud (cleaned_comments comments))
    ∧ cleaned_comments comments
        = (comments.filter (fun c => !(trimChars c).isEmpty)).map clean_text := by
  intro comments
  refine ⟨?_, ?_, rfl⟩
  · unfold get_comprehensive_analysis
    by_cases hnil : comments = []
    · rw [if_pos hnil]
      subst hnil
      simp
    · rw [if_neg hnil]
      by_cases hcl : cleaned_comments comments = []
      · rw [if_pos hcl]
        constructor
        · intro _
          exact cleaned_comments_eq_nil_iff.mp hcl
        · intro _
          exact ⟨_, rfl⟩
      · rw [if_neg hcl]
        constructor
        · rintro ⟨e, he⟩
          cases he
        · intro hall
          exact absurd (cleaned_comments_eq_nil_iff.mpr hall) hcl
  · intro r hr
    unfold get_comprehensive_analysis at hr
    by_cases hnil : comments = []
    · rw [if_pos hnil] at hr
      cases hr
    · rw [if_neg hnil] at hr
      by_cases hcl : cleaned_comments comments = []
      · rw [if_pos hcl] at hr
        cases hr
      · rw [if_neg hcl] at hr
        have := Except.ok.inj hr
        subst this
        exact ⟨rfl, rfl, rfl, rfl, rfl, rfl⟩

/-- C10: whenever the pipeline returns a report, its `mention_percentage` is
0, because `clean_text` removes every `@` before the pattern pass runs
(otherwise the pipeline returns an error). -/
theorem c10_mentions_zero :
    ∀ comments : List Comment,
      (∃ r p, get_comprehensive_analysis comments = .ok r
        ∧ r.comment_patterns = .ok p ∧ p.mention_percentage = 0)
    ∨ (∃ e, get_comprehensive_analysis comments = .error e) := by
  intro comments
  unfold get_comprehensive_analysis
  by_cases hnil : comments = []
  · rw [if_pos hnil]
    right
    exact ⟨_, rfl⟩
  · rw [if_neg hnil]
    by_cases hcl : cleaned_comments comments = []
    · rw [if_pos hcl]
      right
      exact ⟨_, rfl⟩
    · rw [if_neg hcl]
      left
      have hzero : (cleaned_comments comments).countP
          (fun comment => decide ('@' ∈ comment)) = 0 := by
        rw [List.countP_eq_zero]
        intro a ha
        unfold cleaned_comments at ha
        obtain ⟨c, hc, rfl⟩ := List.mem_map.mp ha
        simpa using at_not_mem_clean_text c
      refine ⟨_, _, rfl, analyze_comment_patterns_spec _ hcl, ?_⟩
      rw [hzero]
      rw [show ((0 : ℕ) : ℚ) = 0 from rfl]
      rw [zero_div, zero_mul, pyRound2_zero]

/-- `analyze_sentiment` on a list that passes both guards, written out. -/
theorem analyze_sentiment_spec (comments : List Comment) (h1 : ¬comments = [])
    (h2 : ¬((comments.filter validLen).map heuristicSentiment).length = 0) :
    analyze_sentiment comments = .ok
      { total_comments := ((comments.filter validLen).map heuristicSentiment).length
        sentiment_distribution := counterList ((comments.filter validLen).map heuristicSentiment)
        sentiment_percentages :=
          (counterList ((comments.filter validLen).map heuristicSentiment)).map
            (fun p => (p.1, pyRound2 ((p.2 : ℚ)
              / ((((comments.filter validLen).map heuristicSentiment).length : ℕ) : ℚ) * 100)))
        average_sentiment_score :=
          if ((comments.filter validLen).map heuristicSentiment).map sentimentScore = [] then 0
          else pyRound3 ((((comments.filter validLen).map heuristicSentiment).map sentimentScore).sum
            / (((((comments.filter validLen).map heuristicSentiment).map sentimentScore).length : ℕ) : ℚ))
        overall_sentiment :=
          (argmaxFirst (counterList ((comments.filter validLen).map heuristicSentiment))).getD
            .NEUTRAL } := by
  simp only [analyze_sentiment]
  rw [if_neg h1, if_neg h2]

/-- `analyze_emotions` on a list that passes both guards, written out. -/
theorem analyze_emotions_spec (comments : List Comment) (h1 : ¬comments = [])
    (h2 : ¬((comments.filter validLen).map heuristicEmotion).length = 0) :
    analyze_emotions comments = .ok
      { emotion_distribution := counterList ((comments.filter validLen).map heuristicEmotion)
        emotion_percentages :=
          (counterList ((comments.filter validLen).map heuristicEmotion)).map
            (fun p => (p.1, pyRound2 ((p.2 : ℚ)
              / ((((comments.filter validLen).map heuristicEmotion).length : ℕ) : ℚ) * 100)))
        dominant_emotion :=
          (argmaxFirst (counterList ((comments.filter validLen).map heuristicEmotion))).getD
            .neutral } := by
  simp only [analyze_emotions]
  rw [if_neg h1, if_neg h2]

/-- C3: for every comment list on which the sentiment (resp. emotion) pass
returns a non-error result, the rounded percentage values sum to 100 within
the two-decimal rounding tolerance: at most half an ulp (1/200) per
distribution entry, and there are at most 3 sentiment labels (resp. 6
emotion labels). -/
theorem c3_percentages_sum :
    ∀ comments : List Comment,
      (∀ r, analyze_sentiment comments = .ok r →
        |((r.sentiment_percentages.map (fun p => p.2)).sum) - 100| ≤ 3 * (1/200))
    ∧ (∀ r, analyze_emotions comments = .ok r →
        |((r.emotion_percentages.map (fun p => p.2)).sum) - 100| ≤ 6 * (1/200)) := by
  intro comments
  constructor
  · intro r hr
    by_cases h1 : comments = []
    · unfold analyze_sentiment at hr
      rw [if_pos h1] at hr
      cases hr
    · by_cases h2 : ((comments.filter validLen).map heuristicSentiment).length = 0
      · unfold analyze_sentiment at hr
        rw [if_neg h1] at hr
        simp only [h2] at hr
        rw [if_pos trivial] at hr
        cases hr
      · rw [analyze_sentiment_spec comments h1 h2] at hr
        replace hr := Except.ok.inj hr
        subst hr
        set ls := (comments.filter validLen).map heuristicSentiment with hls
        have hne : ls ≠ [] := by
          intro hnil
          rw [hnil] at h2
          exact h2 rfl
        have hmain := counter_percentages_sum_close ls hne
        have hproj : ((counterList ls).map
            (fun p => (p.1, pyRound2 ((p.2 : ℚ) / ((ls.length : ℕ) : ℚ) * 100)))).map
              (fun p => p.2)
            = (counterList ls).map
                (fun p => pyRound2 ((p.2 : ℚ) / ((ls.length : ℕ) : ℚ) * 100)) := by
          rw [List.map_map]
          rfl
        show |((((counterList ls).map (fun p => (p.1, pyRound2 ((p.2 : ℚ)
            / ((ls.length : ℕ) : ℚ) * 100)))).map (fun p => p.2)).sum) - 100| ≤ 3 * (1/200)
        rw [hproj]
        have hcard : ((counterList ls).length : ℚ) ≤ 3 := by
          have h3 := length_counterList_le_card ls
          have h4 : Fintype.card SLabel = 3 := rfl
          rw [h4] at h3
          exact_mod_cast h3
        calc |(((counterList ls).map
            (fun p => pyRound2 ((p.2 : ℚ) / ((ls.length : ℕ) : ℚ) * 100))).sum) - 100|
            ≤ ((counterList ls).length : ℚ) * (1/200) := hmain
          _ ≤ 3 * (1/200) := by
              apply mul_le_mul_of_nonneg_right hcard
              norm_num
  · intro r hr
    by_cases h1 : comments = []
    · unfold analyze_emotions at hr
      rw [if_pos h1] at hr
      cases hr
    · by_cases h2 : ((comments.filter validLen).map heuristicEmotion).length = 0
      · unfold analyze_emotions at hr
        rw [if_neg h1] at hr
        simp only [h2] at hr
        rw [if_pos trivial] at hr
        cases hr
      · rw [analyze_emotions_spec comments h1 h2] at hr
        replace hr := Except.ok.inj hr
        subst hr
        set ls := (comments.filter validLen).map heuristicEmotion with hls
        have hne : ls ≠ [] := by
          intro hnil
          rw [hnil] at h2
          exact h2 rfl
        have hmain := counter_percentages_sum_close ls hne
        have hproj : ((counterList ls).map
            (fun p => (p.1, pyRound2 ((p.2 : ℚ) / ((ls.length : ℕ) : ℚ) * 100)))).map
              (fun p => p.2)
            = (counterList ls).map
                (fun p => pyRound2 ((p.2 : ℚ) / ((ls.length : ℕ) : ℚ) * 100)) := by
          rw [List.map_map]
          rfl
        show |((((counterList ls).map (fun p => (p.1, pyRound2 ((p.2 : ℚ)
            / ((ls.length : ℕ) : ℚ) * 100)))).map (fun p => p.2)).sum) - 100| ≤ 6 * (1/200)
        rw [hproj]
        have hcard : ((counterList ls).length : ℚ) ≤ 6 := by
          have h3 := length_counterList_le_card ls
          have h4 : Fintype.card ELabel = 6 := rfl
          rw [h4] at h3
          exact_mod_cast h3
        calc |(((counterList ls).map
            (fun p => pyRound2 ((p.2 : ℚ) / ((ls.length : ℕ) : ℚ) * 100))).sum) - 100|
            ≤ ((counterList ls).length : ℚ) * (1/200) := hmain
          _ ≤ 6 * (1/200) := by
              apply mul_le_mul_of_nonneg_right hcard
              norm_num

/-- C3 witness: a concrete run in which both distributions exist and their
percentage values sum to 100 within tolerance. -/
theorem c3_witness :
    (∃ r, analyze_sentiment [("good".toList)] = .ok r
      ∧ |((r.sentiment_percentages.map (fun p => p.2)).sum) - 100| ≤ 3 * (1/200))
  ∧ (∃ r, analyze_emotions [("good".toList)] = .ok r
      ∧ |((r.emotion_percentages.map (fun p => p.2)).sum) - 100| ≤ 6 * (1/200)) := by
  constructor
  · have hspec := analyze_sentiment_spec [("good".toList)] (by decide) (by decide)
    exact ⟨_, hspec, (c3_percentages_sum [("good".toList)]).1 _ hspec⟩
  · have hspec := analyze_emotions_spec [("good".toList)] (by decide) (by decide)
    exact ⟨_, hspec, (c3_percentages_sum [("good".toList)]).2 _ hspec⟩

/-- C7: a comment whose trimmed length is under 3 characters contributes
nothing to the sentiment or emotion pass (dropping it leaves both results
unchanged), but is still counted by the pattern pass (`total_comments`,
the length average, and the punctuation percentages all include it). -/
theorem c7_short_comment_tallies :
    ∀ (c : Comment) (cs : List Comment), (trimChars c).length < 3 → cs ≠ [] →
      analyze_sentiment (c :: cs) = analyze_sentiment cs
    ∧ analyze_emotions (c :: cs) = analyze_emotions cs
    ∧ (∃ r, analyze_comment_patterns (c :: cs) = .ok r
        ∧ r.total_comments = cs.length + 1
        ∧ r.average_length = pyRound2 ((((c.length + (cs.map List.length).sum : ℕ)) : ℚ)
            / (((cs.length + 1 : ℕ)) : ℚ))
        ∧ r.exclamation_percentage = pyRound2
            ((((c :: cs).countP (fun x => decide ('!' ∈ x)) : ℕ) : ℚ)
              / (((cs.length + 1 : ℕ)) : ℚ) * 100)) := by
  intro c cs hshort hcs
  have hvalid : validLen c = false := by
    simp only [validLen, decide_eq_false_iff_not]
    omega
  have hfe : (c :: cs).filter validLen = cs.filter validLen := by
    rw [List.filter_cons, hvalid]
    simp
  refine ⟨?_, ?_, ?_⟩
  · simp only [analyze_sentiment]
    rw [if_neg (by simp), if_neg hcs, hfe]
  · simp only [analyze_emotions]
    rw [if_neg (by simp), if_neg hcs, hfe]
  · refine ⟨_, analyze_comment_patterns_spec (c :: cs) (by simp), ?_, ?_, ?_⟩
    · simp
    · show pyRound2 (((((c :: cs).map List.length).sum : ℕ) : ℚ)
          / ((((c :: cs).map List.length).length : ℕ) : ℚ)) = _
      rw [List.map_cons, List.sum_cons, List.length_cons, List.length_map]
    · show pyRound2 ((((c :: cs).countP (fun x => decide ('!' ∈ x)) : ℕ) : ℚ)
          / (((c :: cs).length : ℕ) : ℚ) * 100) = _
      rw [List.length_cons]

/-- C7 witness: dropping the short comment `"ab"` leaves the sentiment result
on `["ab", "good"]` unchanged, while the pattern pass still counts it. -/
theorem c7_witness :
    analyze_sentiment [("ab".toList), ("good".toList)] = analyze_sentiment [("good".toList)]
  ∧ ∃ r, analyze_comment_patterns [("ab".toList), ("good".toList)] = .ok r
      ∧ r.total_comments = 2 := by
  have h := c7_short_comment_tallies ("ab".toList) [("good".toList)] (by decide) (by simp)
  refine ⟨h.1, ?_⟩
  obtain ⟨r, hr1, hr2, -⟩ := h.2.2
  exact ⟨r, hr1, by rw [hr2]; rfl⟩

/-- C4: an input list that is empty, all-blank, or whose comments all trim to
under 3 characters produces a structured error: either the pipeline
short-circuits with an error value, or the report's sentiment entry is the
"no valid comments" error.  (The embedded pipeline is a total function, so no
exception can be raised.) -/
theorem c4_degenerate_inputs :
    ∀ comments : List Comment,
      (comments = [] ∨ (∀ c ∈ comments, trimChars c = [])
        ∨ (∀ c ∈ comments, (trimChars c).length < 3)) →
      (∃ e, get_comprehensive_analysis comments = .error e)
      ∨ (∃ r e, get_comprehensive_analysis comments = .ok r
          ∧ r.sentiment_analysis = .error e) := by
  intro comments hcase
  by_cases hblank : ∀ c ∈ comments, trimChars c = []
  · left
    unfold get_comprehensive_analysis
    by_cases hnil : comments = []
    · rw [if_pos hnil]
      exact ⟨_, rfl⟩
    · rw [if_neg hnil, if_pos (cleaned_comments_eq_nil_iff.mpr hblank)]
      exact ⟨_, rfl⟩
  · have h3 : ∀ c ∈ comments, (trimChars c).length < 3 := by
      rcases hcase with rfl | hb | h3
      · intro c hc
        cases hc
      · exact absurd hb hblank
      · exact h3
    right
    have hnil : comments ≠ [] := by
      intro h
      subst h
      exact hblank (by intro c hc; cases hc)
    have hclne : cleaned_comments comments ≠ [] :=
      fun h => hblank (cleaned_comments_eq_nil_iff.mp h)
    have hfl : (cleaned_comments comments).filter validLen = [] := by
      rw [List.filter_eq_nil_iff]
      intro e he
      unfold cleaned_comments at he
      obtain ⟨c, hc, rfl⟩ := List.mem_map.mp he
      have hc2 : c ∈ comments := (List.mem_filter.mp hc).1
      have hlt := h3 c hc2
      have hle := length_clean_text_le_trim c
      have hle2 := length_trimChars_le (clean_text c)
      simp only [validLen, decide_eq_true_eq]
      omega
    have hsent : analyze_sentiment (cleaned_comments comments)
        = .error ("No valid comments to analyze") := by
      simp only [analyze_sentiment]
      rw [if_neg hclne, hfl]
      simp only [List.map_nil, List.length_nil]
      rw [if_pos trivial]
    unfold get_comprehensive_analysis
    rw [if_neg hnil, if_neg hclne]
    exact ⟨_, _, rfl, hsent⟩

/-- C4 witness: on the single comment `"ab"` (under 3 characters after
trimming) the pipeline yields a report whose sentiment entry is an explicit
error. -/
theorem c4_witness :
    (∃ e, get_comprehensive_analysis [("ab".toList)] = .error e)
  ∨ (∃ r e, get_comprehensive_analysis [("ab".toList)] = .ok r
      ∧ r.sentiment_analysis = .error e) :=
  c4_degenerate_inputs _ (Or.inr (Or.inr (by decide)))

/-- C5 witness: the two spec examples, derived from the spam rule. -/
theorem c5_witness :
    spamReason ("THIS IS DEFINITELY SPAM TEXT".toList) = some ("All caps")
  ∧ spamReason (List.replicate 16 'a') = some ("Repetitive characters") :=
  ⟨c5_spam_rule.2.2.1 _ (by decide) (by decide), c5_spam_rule.2.1 'a'⟩

/-- C2 witness: on the empty input the pipeline short-circuits with an
error, as characterized by the cleaning theorem. -/
theorem c2_witness : ∃ e, get_comprehensive_analysis ([] : List Comment) = .error e :=
  (c2_cleaning []).1.mpr (by intro c hc; cases hc)

theorem pyRound2_intCast_arg {q : ℚ} {k : ℤ} (h : q * 100 = (k : ℚ)) :
    pyRound2 q = (k : ℚ) / 100 := by
  unfold pyRound2 roundHalfEven
  rw [h, Int.floor_intCast]
  rw [if_neg (by rw [sub_self]; norm_num)]
  rw [round_intCast]

theorem pyRound2_natCast (n : ℕ) : pyRound2 ((n : ℚ)) = (n : ℚ) := by
  have h := @pyRound2_intCast_arg ((n : ℕ) : ℚ) ((n : ℤ) * 100)
    (by push_cast; ring)
  rw [h]
  push_cast
  field_simp

/-- The median of a list of naturals in the usual sense of the word (what
the spec's "median" denotes): the middle element of the sorted values for an
odd count, the mean of the two middle elements for an even count. -/
def specMedian (l : List ℕ) : ℚ :=
  let s := l.mergeSort (fun a b => decide (a ≤ b))
  (((s.getD ((l.length - 1) / 2) 0 : ℕ) : ℚ) + ((s.getD (l.length / 2) 0 : ℕ) : ℚ)) / 2

/-- C6 counterexample: on the two comments `""` and `"aaaaaaaaaa"` (lengths 0
and 10) the pattern analyzer reports `median_length = 10`, the upper middle
element, whereas the median of the two lengths is 5. -/
theorem c6_counterexample :
    ∃ r, analyze_comment_patterns [([] : List Char), List.replicate 10 'a'] = .ok r
    ∧ r.median_length = 10
    ∧ specMedian ([([] : List Char), List.replicate 10 'a'].map List.length) = 5
    ∧ r.median_length ≠ specMedian ([([] : List Char), List.replicate 10 'a'].map List.length) := by
  have hsort : ([([] : List Char), List.replicate 10 'a'].map List.length).mergeSort
      (fun a b => decide (a ≤ b)) = [0, 10] := by
    rw [show [([] : List Char), List.replicate 10 'a'].map List.length = [0, 10] from by decide]
    exact List.mergeSort_of_sorted (by decide)
  refine ⟨_, analyze_comment_patterns_spec _ (by simp), ?_, ?_, ?_⟩
  · show pyRound2 _ = 10
    rw [hsort]
    rw [show (([([] : List Char), List.replicate 10 'a'].map List.length).length : ℕ) = 2
      from by decide]
    rw [show ([0, 10].getD (2 / 2) 0 : ℕ) = 10 from by decide]
    exact pyRound2_natCast 10
  · unfold specMedian
    rw [hsort]
    norm_num
  · show pyRound2 _ ≠ _
    unfold specMedian
    rw [hsort]
    rw [show (([([] : List Char), List.replicate 10 'a'].map List.length).length : ℕ) = 2
      from by decide]
    rw [show ([0, 10].getD (2 / 2) 0 : ℕ) = 10 from by decide]
    rw [pyRound2_natCast 10]
    norm_num

/-- C6 (amended): for every non-empty comment list the pattern analyzer
returns the comment count, the two-decimal rounded mean of the lengths, the
element at position `⌊n/2⌋` of the sorted lengths (the *upper median*, which
is the median only for odd-sized lists — for even sizes it can differ from
the median, cf. the counterexample), the maximum and minimum lengths, and
the percentage of comments containing `!`, `?` and `@` respectively. -/
theorem c6_pattern_stats :
    ∀ comments : List Comment, comments ≠ [] →
      ∃ r, analyze_comment_patterns comments = .ok r
      ∧ r.total_comments = comments.length
      ∧ r.average_length = pyRound2 ((((comments.map List.length).sum : ℕ) : ℚ)
          / ((comments.length : ℕ) : ℚ))
      ∧ r.median_length = ((((comments.map List.length).mergeSort
            (fun a b => decide (a ≤ b))).getD (comments.length / 2) 0 : ℕ) : ℚ)
      ∧ (∃ m ∈ comments.map List.length, r.median_length = ((m : ℕ) : ℚ))
      ∧ (r.longest_comment ∈ comments.map List.length
         ∧ ∀ l ∈ comments.map List.length, l ≤ r.longest_comment)
      ∧ (r.shortest_comment ∈ comments.map List.length
         ∧ ∀ l ∈ comments.map List.length, r.shortest_comment ≤ l)
      ∧ r.exclamation_percentage = pyRound2
          (((comments.countP (fun x => decide ('!' ∈ x)) : ℕ) : ℚ)
            / ((comments.length : ℕ) : ℚ) * 100)
      ∧ r.question_percentage = pyRound2
          (((comments.countP (fun x => decide ('?' ∈ x)) : ℕ) : ℚ)
            / ((comments.length : ℕ) : ℚ) * 100)
      ∧ r.mention_percentage = pyRound2
          (((comments.countP (fun x => decide ('@' ∈ x)) : ℕ) : ℚ)
            / ((comments.length : ℕ) : ℚ) * 100) := by
  intro comments hne
  have hlenmap : (comments.map List.length).length = comments.length := List.length_map _ _
  have hmapne : comments.map List.length ≠ [] := by
    intro h
    exact hne (List.map_eq_nil_iff.mp h)
  set lens := comments.map List.length with hlens
  set sorted := lens.mergeSort (fun a b => decide (a ≤ b)) with hsorted
  have hsortlen : sorted.length = comments.length := by
    rw [hsorted, List.length_mergeSort, hlenmap]
  have hlenpos : 0 < comments.length := List.length_pos.mpr hne
  have hidx : comments.length / 2 < sorted.length := by
    rw [hsortlen]
    omega
  have hmed_mem : sorted.getD (comments.length / 2) 0 ∈ lens := by
    rw [List.getD_eq_getElem?_getD, List.getElem?_eq_getElem hidx]
    simp only [Option.getD_some]
    have h1 : sorted[comments.length / 2] ∈ sorted := List.getElem_mem hidx
    exact ((List.mergeSort_perm lens (fun a b => decide (a ≤ b))).mem_iff).mp h1
  refine ⟨_, analyze_comment_patterns_spec _ hne, by simp, ?_, ?_, ?_, ?_, ?_, ?_, ?_, ?_⟩
  · rw [hlenmap]
  · show pyRound2 _ = _
    rw [hlenmap, ← hlens, ← hsorted]
    exact pyRound2_natCast _
  · refine ⟨sorted.getD (comments.length / 2) 0, hmed_mem, ?_⟩
    show pyRound2 _ = _
    rw [hlenmap, ← hlens, ← hsorted]
    exact pyRound2_natCast _
  · show (lens.max?.getD 0 ∈ lens ∧ _)
    cases hmax : lens.max? with
    | none => exact absurd (List.max?_eq_none_iff.mp hmax) hmapne
    | some a =>
      simp only [Option.getD_some]
      constructor
      · exact List.max?_mem max_choice hmax
      · intro l hl
        exact ((List.max?_le_iff (fun a b c => max_le_iff) hmax).mp (le_refl a)) l hl
  · show (lens.min?.getD 0 ∈ lens ∧ _)
    cases hmin : lens.min? with
    | none => exact absurd (List.min?_eq_none_iff.mp hmin) hmapne
    | some a =>
      simp only [Option.getD_some]
      constructor
      · exact List.min?_mem min_choice hmin
      · intro l hl
        exact ((List.le_min?_iff (fun a b c => le_min_iff) hmin).mp (le_refl a)) l hl
  · rfl
  · rfl
  · rfl

/-- C6 witness: the (amended) pattern statistics on a concrete two-comment
list. -/
theorem c6_witness :
    ∃ r, analyze_comment_patterns [("hi!".toList), ("ok?".toList)] = .ok r
    ∧ r.total_comments = 2 := by
  obtain ⟨r, hr, ht, -⟩ := c6_pattern_stats [("hi!".toList), ("ok?".toList)] (by simp)
  exact ⟨r, hr, by rw [ht]; rfl⟩

/-! ### Evaluation helpers for concrete inputs -/

/-- Structural scan certifying that the URL regex matches nowhere in `s`. -/
def urlFree : List Char → Bool
  | [] => true
  | c :: rest =>
    (match stripScheme (c :: rest) with
      | some (r :: _) => !(isUrlChar r)
      | some [] => true
      | none => true) && urlFree rest

theorem removeUrls_eq_self {s : List Char} (h : urlFree s = true) :
    removeUrls s = s := by
  induction s using removeUrls.induct with
  | case1 => rw [removeUrls]
  | case2 c rest r rs hs hr ih =>
    exfalso
    rw [urlFree, hs] at h
    simp only [Bool.and_eq_true] at h
    rw [hr] at h
    simp at h
  | case3 c rest r rs hs hr ih =>
    rw [removeUrls, hs]
    simp only [hr, if_false, Bool.false_eq_true]
    rw [urlFree, hs] at h
    simp only [Bool.and_eq_true] at h
    rw [ih h.2]
  | case4 c rest hs ih =>
    rw [removeUrls, hs]
    rw [urlFree, hs] at h
    simp only [Bool.and_eq_true] at h
    rw [ih h.2]
  | case5 c rest hs ih =>
    rw [removeUrls, hs]
    rw [urlFree, hs] at h
    simp only [Bool.and_eq_true] at h
    rw [ih h.2]

theorem splitWs_nil : splitWs [] = [] :=
  splitWs_eq_nil_iff.mpr (show List.dropWhile isWsB [] = [] from rfl)

/-- One step of `splitWs` with all sub-computations supplied. -/
theorem splitWs_step {s s1 w r : List Char} (h1 : s.dropWhile isWsB = s1)
    (h2 : s1.isEmpty = false)
    (h3 : s1.takeWhile (fun x => !(isWsB x)) = w)
    (h4 : s1.dropWhile (fun x => !(isWsB x)) = r) :
    splitWs s = w :: splitWs r := by
  cases s1 with
  | nil => cases h2
  | cons c rest =>
    rw [splitWs_eq_cons h1, h3, h4]

theorem firstDedup_nil {α} [DecidableEq α] : firstDedup ([] : List α) = [] := by
  rw [firstDedup]

theorem firstDedup_cons {α} [DecidableEq α] (a : α) (l : List α) :
    firstDedup (a :: l) = a :: firstDedup (l.filter (fun x => x ≠ a)) := by
  rw [firstDedup]

/-- `get_comprehensive_analysis` past both guards, written out. -/
theorem get_comprehensive_analysis_spec (comments : List Comment)
    (h1 : ¬comments = []) (h2 : ¬cleaned_comments comments = []) :
    get_comprehensive_analysis comments = .ok
      { sentiment_analysis := analyze_sentiment (cleaned_comments comments)
        emotion_analysis := analyze_emotions (cleaned_comments comments)
        toxicity_analysis := detect_toxicity (cleaned_comments comments)
        keywords := extract_keywords hardcodedStopWords (cleaned_comments comments) 20
        comment_patterns := analyze_comment_patterns (cleaned_comments comments)
        wordcloud := generate_wordcloud (cleaned_comments comments) } := by
  unfold get_comprehensive_analysis
  rw [if_neg h1, if_neg h2]

theorem splitWs_the_cat_sat : splitWs ("the cat sat".toList)
    = [("the".toList), ("cat".toList), ("sat".toList)] := by
  rw [@splitWs_step ("the cat sat".toList) ("the cat sat".toList) ("the".toList)
    (" cat sat".toList) (by decide) (by decide) (by decide) (by decide)]
  rw [@splitWs_step (" cat sat".toList) ("cat sat".toList) ("cat".toList)
    (" sat".toList) (by decide) (by decide) (by decide) (by decide)]
  rw [@splitWs_step (" sat".toList) ("sat".toList) ("sat".toList)
    ([]) (by decide) (by decide) (by decide) (by decide)]
  rw [splitWs_nil]

theorem splitWs_the_cat_ran : splitWs ("the cat ran".toList)
    = [("the".toList), ("cat".toList), ("ran".toList)] := by
  rw [@splitWs_step ("the cat ran".toList) ("the cat ran".toList) ("the".toList)
    (" cat ran".toList) (by decide) (by decide) (by decide) (by decide)]
  rw [@splitWs_step (" cat ran".toList) ("cat ran".toList) ("cat".toList)
    (" ran".toList) (by decide) (by decide) (by decide) (by decide)]
  rw [@splitWs_step (" ran".toList) ("ran".toList) ("ran".toList)
    ([]) (by decide) (by decide) (by decide) (by decide)]
  rw [splitWs_nil]

theorem clean_the_cat_sat : clean_text ("the cat sat".toList) = "the cat sat".toList := by
  show trimChars (List.intercalate [' ']
    (splitWs (((removeUrls ("the cat sat".toList))).filter keepChar))) = _
  rw [removeUrls_eq_self (by decide),
    show ("the cat sat".toList).filter keepChar = "the cat sat".toList from by decide,
    splitWs_the_cat_sat]
  decide

theorem clean_the_cat_ran : clean_text ("the cat ran".toList) = "the cat ran".toList := by
  show trimChars (List.intercalate [' ']
    (splitWs (((removeUrls ("the cat ran".toList))).filter keepChar))) = _
  rw [removeUrls_eq_self (by decide),
    show ("the cat ran".toList).filter keepChar = "the cat ran".toList from by decide,
    splitWs_the_cat_ran]
  decide

theorem allWords_cat_example :
    allWords [("the".toList)] [("the cat sat".toList), ("the cat ran".toList)]
      = [("cat".toList), ("sat".toList), ("cat".toList), ("ran".toList)] := by
  unfold allWords
  simp only [List.flatMap_cons, List.flatMap_nil, List.append_nil]
  rw [show ("the cat sat".toList).map Char.toLower = "the cat sat".toList from by decide]
  rw [show ("the cat ran".toList).map Char.toLower = "the cat ran".toList from by decide]
  rw [clean_the_cat_sat, clean_the_cat_ran, splitWs_the_cat_sat, splitWs_the_cat_ran]
  decide

/-- C8: keyword extraction keeps exactly the alphabetic tokens longer than 2
characters that are not stopwords; it returns at most `top_n` entries, in
non-increasing count order, each carrying the token's frequency in the
filtered token stream; the pipeline calls it with the default `top_n = 20`
and the dedicated keywords endpoint with 30; and the `["the cat sat",
"the cat ran"]` example with stopwords `{the}` yields `cat` (count 2) ranked
above `sat` and `ran` (count 1 each). -/
theorem c8_keywords :
    (∀ (stop : List (List Char)) (top_n : ℕ) (comments : List Comment),
       (∀ e ∈ extract_keywords stop comments top_n,
          pyIsAlpha e.word = true ∧ 2 < e.word.length ∧ stop.contains e.word = false
          ∧ e.word ∈ allWords stop comments
          ∧ e.count = (allWords stop comments).countP (fun w => w = e.word))
     ∧ (extract_keywords stop comments top_n).length ≤ top_n
     ∧ List.Pairwise (fun a b => b.count ≤ a.count) (extract_keywords stop comments top_n))
  ∧ (∀ comments r, get_comprehensive_analysis comments = .ok r →
       r.keywords = extract_keywords hardcodedStopWords (cleaned_comments comments) 20)
  ∧ (∀ comments ks, extract_keywords_only comments = .ok ks →
       ks = extract_keywords hardcodedStopWords (cleaned_comments comments) 30)
  ∧ extract_keywords [("the".toList)] [("the cat sat".toList), ("the cat ran".toList)] 20
      = [{ word := "cat".toList, count := 2 }, { word := "sat".toList, count := 1 },
         { word := "ran".toList, count := 1 }] := by
  refine ⟨?_, ?_, ?_, ?_⟩
  · intro stop top_n comments
    refine ⟨?_, ?_, ?_⟩
    · intro e he
      unfold extract_keywords mostCommon at he
      obtain ⟨p, hp, rfl⟩ := List.mem_map.mp he
      have hp2 : p ∈ (counterList (allWords stop comments)).mergeSort
          (fun a b => decide (b.2 ≤ a.2)) :=
        (List.take_sublist _ _).subset hp
      have hp3 : p ∈ counterList (allWords stop comments) :=
        ((List.mergeSort_perm _ _).mem_iff).mp hp2
      obtain ⟨hmem, hcount⟩ := mem_counterList hp3
      have hfilterP : keywordFilter stop p.1 = true := by
        unfold allWords at hmem
        obtain ⟨c, hc, hmem2⟩ := List.mem_flatMap.mp hmem
        exact (List.mem_filter.mp hmem2).2
      simp only [keywordFilter, Bool.and_eq_true, Bool.not_eq_true',
        decide_eq_true_eq] at hfilterP
      exact ⟨hfilterP.1.1, hfilterP.1.2, hfilterP.2, hmem, hcount⟩
    · unfold extract_keywords mostCommon
      rw [List.length_map, List.length_take]
      exact min_le_left _ _
    · unfold extract_keywords mostCommon
      have hsorted := @List.sorted_mergeSort (List Char × ℕ)
        (fun a b => decide (b.2 ≤ a.2))
        (fun a b c hab hbc => by
          simp only [decide_eq_true_eq] at *
          exact hbc.trans hab)
        (fun a b => by simpa using Nat.le_total b.2 a.2)
        (counterList (allWords stop comments))
      have htake := hsorted.sublist (List.take_sublist top_n _)
      rw [List.pairwise_map]
      exact htake.imp (fun h => by simpa using h)
  · intro comments r hr
    unfold get_comprehensive_analysis at hr
    by_cases h1 : comments = []
    · rw [if_pos h1] at hr
      cases hr
    · rw [if_neg h1] at hr
      by_cases h2 : cleaned_comments comments = []
      · rw [if_pos h2] at hr
        cases hr
      · rw [if_neg h2] at hr
        replace hr := Except.ok.inj hr
        subst hr
        rfl
  · intro comments ks hks
    unfold extract_keywords_only at hks
    by_cases h1 : comments = []
    · rw [if_pos h1] at hks
      cases hks
    · rw [if_neg h1] at hks
      by_cases h2 : cleaned_comments comments = []
      · rw [if_pos h2] at hks
        cases hks
      · rw [if_neg h2] at hks
        exact (Except.ok.inj hks).symm
  · unfold extract_keywords mostCommon
    rw [allWords_cat_example]
    have hcl : counterList [("cat".toList), ("sat".toList), ("cat".toList), ("ran".toList)]
        = [(("cat".toList), 2), (("sat".toList), 1), (("ran".toList), 1)] := by
      unfold counterList
      rw [firstDedup_cons]
      rw [show [("sat".toList), ("cat".toList), ("ran".toList)].filter
        (fun x => x ≠ ("cat".toList)) = [("sat".toList), ("ran".toList)] from by decide]
      rw [firstDedup_cons]
      rw [show [("ran".toList)].filter (fun x => x ≠ ("sat".toList))
        = [("ran".toList)] from by decide]
      rw [firstDedup_cons]
      rw [show ([] : List (List Char)).filter (fun x => x ≠ ("ran".toList)) = [] from rfl]
      rw [firstDedup_nil]
      decide
    rw [hcl]
    rw [List.mergeSort_of_sorted (by decide)]
    decide

/-- C8 witness: the entry `cat` of the concrete example satisfies the token
filter and carries its frequency. -/
theorem c8_witness :
    pyIsAlpha ("cat".toList) = true
  ∧ ("cat".toList) ∈ allWords [("the".toList)]
      [("the cat sat".toList), ("the cat ran".toList)] := by
  have h := (c8_keywords.1 [("the".toList)] 20
      [("the cat sat".toList), ("the cat ran".toList)]).1
    { word := ("cat".toList), count := 2 }
    (by rw [c8_keywords.2.2.2]; decide)
  exact ⟨h.1, h.2.2.2.1⟩

/-! ### The C1 spec example -/

def demoComments : List Comment :=
  [("I love this!!".toList), ("I HATE THIS SO MUCH".toList)]

theorem splitWs_love : splitWs ("I love this!!".toList)
    = [("I".toList), ("love".toList), ("this!!".toList)] := by
  rw [@splitWs_step ("I love this!!".toList) ("I love this!!".toList) ("I".toList)
    (" love this!!".toList) (by decide) (by decide) (by decide) (by decide)]
  rw [@splitWs_step (" love this!!".toList) ("love this!!".toList) ("love".toList)
    (" this!!".toList) (by decide) (by decide) (by decide) (by decide)]
  rw [@splitWs_step (" this!!".toList) ("this!!".toList) ("this!!".toList)
    ([]) (by decide) (by decide) (by decide) (by decide)]
  rw [splitWs_nil]

theorem splitWs_hate : splitWs ("I HATE THIS SO MUCH".toList)
    = [("I".toList), ("HATE".toList), ("THIS".toList), ("SO".toList), ("MUCH".toList)] := by
  rw [@splitWs_step ("I HATE THIS SO MUCH".toList) ("I HATE THIS SO MUCH".toList)
    ("I".toList) (" HATE THIS SO MUCH".toList) (by decide) (by decide) (by decide) (by decide)]
  rw [@splitWs_step (" HATE THIS SO MUCH".toList) ("HATE THIS SO MUCH".toList)
    ("HATE".toList) (" THIS SO MUCH".toList) (by decide) (by decide) (by decide) (by decide)]
  rw [@splitWs_step (" THIS SO MUCH".toList) ("THIS SO MUCH".toList)
    ("THIS".toList) (" SO MUCH".toList) (by decide) (by decide) (by decide) (by decide)]
  rw [@splitWs_step (" SO MUCH".toList) ("SO MUCH".toList)
    ("SO".toList) (" MUCH".toList) (by decide) (by decide) (by decide) (by decide)]
  rw [@splitWs_step (" MUCH".toList) ("MUCH".toList)
    ("MUCH".toList) ([]) (by decide) (by decide) (by decide) (by decide)]
  rw [splitWs_nil]

theorem clean_love : clean_text ("I love this!!".toList) = "I love this!!".toList := by
  show trimChars (List.intercalate [' ']
    (splitWs (((removeUrls ("I love this!!".toList))).filter keepChar))) = _
  rw [removeUrls_eq_self (by decide),
    show ("I love this!!".toList).filter keepChar = "I love this!!".toList from by decide,
    splitWs_love]
  decide

theorem clean_hate : clean_text ("I HATE THIS SO MUCH".toList)
    = "I HATE THIS SO MUCH".toList := by
  show trimChars (List.intercalate [' ']
    (splitWs (((removeUrls ("I HATE THIS SO MUCH".toList))).filter keepChar))) = _
  rw [removeUrls_eq_self (by decide),
    show ("I HATE THIS SO MUCH".toList).filter keepChar
      = "I HATE THIS SO MUCH".toList from by decide,
    splitWs_hate]
  decide

theorem cleaned_demo : cleaned_comments demoComments = demoComments := by
  unfold cleaned_comments demoComments
  rw [show List.filter (fun c => !(trimChars c).isEmpty)
    [("I love this!!".toList), ("I HATE THIS SO MUCH".toList)]
    = [("I love this!!".toList), ("I HATE THIS SO MUCH".toList)] from by decide]
  rw [List.map_cons, List.map_cons, List.map_nil, clean_love, clean_hate]

theorem sentiment_demo :
    ∃ s, analyze_sentiment demoComments = .ok s
    ∧ s.sentiment_distribution = [(SLabel.POSITIVE, 1), (SLabel.NEGATIVE, 1)] := by
  refine ⟨_, analyze_sentiment_spec demoComments (by decide) (by decide), ?_⟩
  show counterList ((demoComments.filter validLen).map heuristicSentiment) = _
  rw [show (demoComments.filter validLen).map heuristicSentiment
    = [SLabel.POSITIVE, SLabel.NEGATIVE] from by decide]
  unfold counterList
  rw [firstDedup_cons]
  rw [show [SLabel.NEGATIVE].filter (fun x => x ≠ SLabel.POSITIVE)
    = [SLabel.NEGATIVE] from by decide]
  rw [firstDedup_cons]
  rw [show ([] : List SLabel).filter (fun x => x ≠ SLabel.NEGATIVE) = [] from rfl]
  rw [firstDedup_nil]
  decide

theorem patterns_demo :
    ∃ p, analyze_comment_patterns demoComments = .ok p
    ∧ p.exclamation_percentage = 50 := by
  refine ⟨_, analyze_comment_patterns_spec demoComments (by decide), ?_⟩
  show pyRound2 (((demoComments.countP (fun x => decide ('!' ∈ x)) : ℕ) : ℚ)
    / ((demoComments.length : ℕ) : ℚ) * 100) = 50
  rw [show demoComments.countP (fun x => decide ('!' ∈ x)) = 1 from by decide]
  rw [show demoComments.length = 2 from by decide]
  rw [pyRound2_intCast_arg
    (show ((1 : ℕ) : ℚ) / ((2 : ℕ) : ℚ) * 100 * 100 = ((5000 : ℤ) : ℚ) from by
      push_cast; norm_num)]
  norm_num

/-- C1 counterexample: on `["I love this!!", "I HATE THIS SO MUCH"]` with
only the heuristic fallback, the report's `exclamation_percentage` is 50.0,
not the 100.0 the claim states — only the first of the two comments
contains `!`. -/
theorem c1_counterexample :
    ∃ r p, get_comprehensive_analysis demoComments = .ok r
    ∧ r.comment_patterns = .ok p
    ∧ p.exclamation_percentage = 50
    ∧ ¬(p.exclamation_percentage = 100) := by
  obtain ⟨p, hp, hex⟩ := patterns_demo
  refine ⟨_, p, get_comprehensive_analysis_spec demoComments (by decide)
    (by rw [cleaned_demo]; decide), ?_, hex, by rw [hex]; norm_num⟩
  show analyze_comment_patterns (cleaned_comments demoComments) = .ok p
  rw [cleaned_demo]
  exact hp

/-- C1 (amended): on `["I love this!!", "I HATE THIS SO MUCH"]` with only the
heuristic fallback active, the pipeline's sentiment distribution is
`{POSITIVE: 1, NEGATIVE: 1}` and its `exclamation_percentage` is 50.0 (one
of the two comments contains `!`). -/
theorem c1_example :
    ∃ r s p, get_comprehensive_analysis demoComments = .ok r
    ∧ r.sentiment_analysis = .ok s
    ∧ s.sentiment_distribution = [(SLabel.POSITIVE, 1), (SLabel.NEGATIVE, 1)]
    ∧ r.comment_patterns = .ok p
    ∧ p.exclamation_percentage = 50 := by
  obtain ⟨s, hs, hd⟩ := sentiment_demo
  obtain ⟨p, hp, hex⟩ := patterns_demo
  refine ⟨_, s, p, get_comprehensive_analysis_spec demoComments (by decide)
    (by rw [cleaned_demo]; decide), ?_, hd, ?_, hex⟩
  · show analyze_sentiment (cleaned_comments demoComments) = .ok s
    rw [cleaned_demo]
    exact hs
  · show analyze_comment_patterns (cleaned_comments demoComments) = .ok p
    rw [cleaned_demo]
    exact hp
